import Mathlib

/-!
Verification of the jsonp JSON reader: a shallow embedding of the
tokenizer (`src/tokenize.rs`) and the recursive-descent parser
(`src/parse.rs`), together with theorems settling the specification
claims about them.

Embedding conventions:
* Rust `i32` line/column counters are embedded as `Int` (no input in any
  claim approaches the 2^31 overflow boundary).
* Fallible Rust code returning `Result<_, SyntaxError>` becomes
  `Except PErr _`.  A Rust panic (the `unreachable!()` arm in
  `Display for Token`) is a distinguished outcome `PErr.panicked`.
* The parser's token vector is never reassigned by any grammar
  production (only `remove_whitespace`, run once at the top of `parse`,
  builds a new vector), so the productions take the token list as a
  fixed first argument and thread only the mutable read index, which is
  the only state the Rust `&mut self` methods change afterwards.
* The `while` loops of `parse_object` / `parse_array` and the mutual
  recursion between the productions are expressed with an explicit fuel
  parameter; exhaustion is the distinguished outcome `PErr.fuelOut`,
  and the fuel supplied by `Parser.parse` (`2 * length + 4`) is shown
  sufficient on every input a theorem touches.
-/

namespace Jsonp

/-- The token type of `src/tokenize.rs` (`enum Token`). -/
inductive Token where
  | quote
  | digit (c : Char)
  | dot
  | comma
  | colon
  | minus
  | rightCurly
  | leftCurly
  | rightBracket
  | leftBracket
  | char (c : Char)
  | newLine
  | whitespace
  | notSupported
deriving DecidableEq, Repr

/-- Source position (`struct Position`), line and column as `i32`. -/
structure Position where
  line : Int
  col : Int
deriving DecidableEq, Repr

/-- A single quote character, used by `Display for Token`. -/
def squo : String := String.singleton (Char.ofNat 39)

/-- `impl Display for Token`: `none` models the `unreachable!()` panic on
`NotSupported`. -/
def Token.display : Token → Option String
  | .quote => some "\""
  | .digit d => some (squo ++ String.singleton d ++ squo)
  | .dot => some "."
  | .comma => some ","
  | .colon => some ":"
  | .minus => some "-"
  | .rightCurly => some "\x7d"
  | .leftCurly => some "\x7b"
  | .rightBracket => some "]"
  | .leftBracket => some "["
  | .char c => some (squo ++ String.singleton c ++ squo)
  | .newLine => some "a newline"
  | .whitespace => some "a whitespace"
  | .notSupported => none

/-- `impl Display for Position`. -/
def Position.display (p : Position) : String :=
  "line " ++ toString p.line ++ " column " ++ toString p.col

/-- A token paired with the position it was produced at. -/
abbrev TP := Token × Position

/-- The per-character classification of `Tokenizer::tokenize`: the
token produced for `c` given the `in_string` flag, together with the
flag for the following character (the flag toggles exactly on `"`, in
both branches). -/
def classify (inStr : Bool) (c : Char) : Token × Bool :=
  if inStr then
    if c = '\n' then (Token.newLine, true)
    else if c = '"' then (Token.quote, false)
    else (Token.char c, true)
  else
    if c = '"' then (Token.quote, true)
    else if c = ':' then (Token.colon, false)
    else if c = '-' then (Token.minus, false)
    else if c = '{' then (Token.leftCurly, false)
    else if c = '}' then (Token.rightCurly, false)
    else if c = '[' then (Token.leftBracket, false)
    else if c = ']' then (Token.rightBracket, false)
    else if c = ',' then (Token.comma, false)
    else if c = '.' then (Token.dot, false)
    else if c = ' ' ∨ c = '\t' then (Token.whitespace, false)
    else if c = '\n' then (Token.newLine, false)
    else if '0' ≤ c ∧ c ≤ '9' then (Token.digit c, false)
    else if ('a' ≤ c ∧ c ≤ 'z') ∨ ('A' ≤ c ∧ c ≤ 'Z') then (Token.char c, false)
    else (Token.notSupported, false)

/-- `Tokenizer::next_char`: advance the column by one. -/
def nextCharPos (pos : Position) : Position := ⟨pos.line, pos.col + 1⟩

/-- `Tokenizer::new_line`: next line, column back to 1. -/
def newLinePos (pos : Position) : Position := ⟨pos.line + 1, 1⟩

/-- The position update of one `tokenize` iteration: `next_char` runs
before classification, and a newline character then runs `new_line`;
the emitted pair carries the post-update position, as in the source. -/
def posStep (pos : Position) (c : Char) : Position :=
  let pos := nextCharPos pos
  if c = '\n' then newLinePos pos else pos

/-- The body of `Tokenizer::tokenize`: one pass over the characters,
threading the in-string flag and the position counter. -/
def tokenizeAux (b : Bool) (pos : Position) : List Char → List TP
  | [] => []
  | c :: cs =>
    (((classify b c).1, posStep pos c)) :: tokenizeAux (classify b c).2 (posStep pos c) cs

/-- `Tokenizer::tokenize` on a fresh `Tokenizer` (position starts at
line 1, column 0; `in_string` starts false).  The `Result` wrapper is
kept from the source even though no path produces the error case. -/
def tokenize (s : String) : Except String (List TP) :=
  .ok (tokenizeAux false ⟨1, 0⟩ s.data)

/-- The parsed value tree (`enum JsonValue`).  The `f64` payload of
`Float` is embedded as the exact decimal rational recovered by the
numeric parser (see `rustParseF64`); binary64 rounding is not modelled,
and no claim depends on a rounded value. -/
inductive JsonValue where
  | object (vs : List JsonValue)
  | keyedObject (k : String) (v : JsonValue)
  | float (q : Rat)
  | int (i : Int)
  | str (s : String)
  | bool (b : Bool)
  | arr (vs : List JsonValue)
  | empty
deriving Repr

/-- Outcome of a parser step: a `SyntaxError` message, a Rust panic, or
fuel exhaustion of the embedding (shown unreachable where needed). -/
inductive PErr where
  | syn (msg : String)
  | panicked
  | fuelOut
deriving DecidableEq, Repr

/-- Modelled from the spec: Rust's native `str::parse::<i64>`, the
numeric-parse collaborator used by `parse_number` (its code is the Rust
standard library, not part of this repository).  Grammar: optional sign,
then one or more ASCII digits, with the value required to fit in the
signed 64-bit range. -/
def rustParseI64 (s : String) : Option Int :=
  match s.data with
  | [] => none
  | c :: rest =>
    let signDigits : Int × List Char :=
      if c = '-' then (-1, rest) else if c = '+' then (1, rest) else (1, c :: rest)
    if signDigits.2 = [] then none
    else if signDigits.2.all (fun d => d.isDigit) then
      let n : Nat := signDigits.2.foldl (fun a d => a * 10 + (d.toNat - 48)) 0
      let v : Int := signDigits.1 * n
      if -(2 ^ 63) ≤ v ∧ v < 2 ^ 63 then some v else none
    else none

/-- Numeric value of a list of ASCII digits. -/
def natOfDigits (ds : List Char) : Nat :=
  ds.foldl (fun a d => a * 10 + (d.toNat - 48)) 0

/-- Modelled from the spec: Rust's native `str::parse::<f64>`, the other
numeric-parse collaborator of `parse_number` (Rust standard library, not
repository code).  Grammar, restricted to the sign/digit/dot strings
that `digits_to_string` can produce (the `inf`/`nan`/exponent forms
contain letters and are unreachable here): optional sign, then either
`Digit+`, `Digit+ '.' Digit*`, or `Digit* '.' Digit+`.  The value is the
exact decimal rational; rounding to binary64 is not modelled. -/
def rustParseF64 (s : String) : Option Rat :=
  let signBody : Rat × List Char :=
    match s.data with
    | '-' :: r => (-1, r)
    | '+' :: r => (1, r)
    | r => (1, r)
  let intPart := signBody.2.takeWhile (fun d => d.isDigit)
  let rest := signBody.2.drop intPart.length
  match rest with
  | [] => if intPart = [] then none else some (signBody.1 * (natOfDigits intPart : Rat))
  | '.' :: frac =>
    if frac.all (fun d => d.isDigit) ∧ (intPart ≠ [] ∨ frac ≠ []) then
      some (signBody.1 *
        ((natOfDigits intPart : Rat) + (natOfDigits frac : Rat) / (10 : Rat) ^ frac.length))
    else none
  | _ => none

/-- The parser state (`struct Parser`): the owned token vector and the
read index. -/
structure Parser where
  tokens : List TP
  idx : Nat
deriving Repr

/-- `Parser::new`. -/
def Parser.new (tokens : List TP) : Parser := ⟨tokens, 0⟩

/-- `Parser::err`: position the message at the current token, or emit
the end-of-file variant when the stream is exhausted. -/
def errAt (tks : List TP) (idx : Nat) (msg : String) : PErr :=
  match tks.get? idx with
  | some tp => .syn ("Syntax error: " ++ msg ++ " at " ++ tp.2.display)
  | none => .syn "Syntax error: unexpected end of file"

/-- `Parser::current_token`. -/
def currentToken (tks : List TP) (idx : Nat) : Except PErr TP :=
  match tks.get? idx with
  | some tp => .ok tp
  | none => .error (errAt tks idx "unexpected end of file")

/-- `Parser::next_token`: advance the index, erroring at end of stream
(the "unterminated" text is rewritten to the end-of-file variant by
`err`, as in the source). -/
def nextToken (tks : List TP) (idx : Nat) : Except PErr Nat :=
  if tks.length ≤ idx then .error (errAt tks idx "unterminated")
  else .ok (idx + 1)

/-- `Parser::last_token`.  (`tokens.len() - 1` in the source; the vector
is nonempty whenever this is reached.) -/
def lastToken (tks : List TP) (idx : Nat) : Bool :=
  tks.length - 1 == idx

/-- The relaxed, payload-insensitive comparison of `assert_current`:
any digit matches any digit, any letter any letter, otherwise exact
(derived) equality. -/
def tokenMatches (ex actual : Token) : Bool :=
  match ex, actual with
  | .char _, .char _ => true
  | .digit _, .digit _ => true
  | a, b => a == b

/-- `Parser::assert_current`: succeed when the current token matches the
expected set, otherwise format "expected ... but got ..." — which panics
(`PErr.panicked`) when any displayed token is `NotSupported`. -/
def assertCurrent (tks : List TP) (idx : Nat) (expected : List Token) : Except PErr Unit :=
  match currentToken tks idx with
  | .error e => .error e
  | .ok curr =>
    if expected.any (fun ex => tokenMatches ex curr.1) then .ok ()
    else
      match expected.mapM Token.display, curr.1.display with
      | some list, some got =>
        .error (errAt tks idx
          ("expected " ++ String.intercalate ", " list ++ " but got " ++ got))
      | _, _ => .error .panicked

/-- The `map_while` collection core of `chars_to_string`: consecutive
letter tokens from the front of a suffix. -/
def charsFrom : List TP → List Char
  | (Token.char c, _) :: rest => c :: charsFrom rest
  | _ => []

/-- `Parser::chars_to_string`: collect consecutive letter tokens into a
string, advancing the index past them. -/
def charsToString (tks : List TP) (idx : Nat) : String × Nat :=
  let cs := charsFrom (tks.drop idx)
  (⟨cs⟩, idx + cs.length)

/-- The `map_while` collection core of `digits_to_string`: consecutive
digit / minus / dot tokens from the front of a suffix. -/
def digitsFrom : List TP → List Char
  | (Token.digit c, _) :: rest => c :: digitsFrom rest
  | (Token.minus, _) :: rest => '-' :: digitsFrom rest
  | (Token.dot, _) :: rest => '.' :: digitsFrom rest
  | _ => []

/-- `Parser::digits_to_string`. -/
def digitsToString (tks : List TP) (idx : Nat) : String × Nat :=
  let cs := digitsFrom (tks.drop idx)
  (⟨cs⟩, idx + cs.length)

/-- `Parser::remove_whitespace` at the list level: drop whitespace and
newline tokens. -/
def removeWhitespace (tps : List TP) : List TP :=
  tps.filter fun tp => !(tp.1 == Token.whitespace) && !(tp.1 == Token.newLine)

/-- `Parser::parse_key`.  A leading comma is skipped when present (the
discarded `assert_current` error cannot panic silently: a panic
propagates), then `"key"` is consumed. -/
def parseKey (tks : List TP) (idx : Nat) : Except PErr (String × Nat) :=
  let afterComma : Except PErr Nat :=
    match assertCurrent tks idx [Token.comma] with
    | .ok _ => nextToken tks idx
    | .error .panicked => .error .panicked
    | .error .fuelOut => .error .fuelOut
    | .error (.syn _) => .ok idx
  match afterComma with
  | .error e => .error e
  | .ok idx =>
  match assertCurrent tks idx [Token.quote] with
  | .error e => .error e
  | .ok _ =>
  match nextToken tks idx with
  | .error e => .error e
  | .ok idx =>
  let collected := charsToString tks idx
  match assertCurrent tks collected.2 [Token.quote] with
  | .error e => .error e
  | .ok _ =>
  match nextToken tks collected.2 with
  | .error e => .error e
  | .ok idx => .ok (collected.1, idx)

/-- `Parser::parse_string_literal`. -/
def parseStringLiteral (tks : List TP) (idx : Nat) : Except PErr (JsonValue × Nat) :=
  match assertCurrent tks idx [Token.quote] with
  | .error e => .error e
  | .ok _ =>
  match nextToken tks idx with
  | .error e => .error e
  | .ok idx =>
  let collected := charsToString tks idx
  match assertCurrent tks collected.2 [Token.quote] with
  | .error e => .error e
  | .ok _ =>
  match nextToken tks collected.2 with
  | .error e => .error e
  | .ok idx => .ok (JsonValue.str collected.1, idx)

/-- `Parser::parse_bool`. -/
def parseBool (tks : List TP) (idx : Nat) : Except PErr (JsonValue × Nat) :=
  let collected := charsToString tks idx
  if collected.1 = "true" then .ok (JsonValue.bool true, collected.2)
  else if collected.1 = "false" then .ok (JsonValue.bool false, collected.2)
  else .error (errAt tks collected.2 "failed to parse boolean")

/-- `Parser::parse_number`: collect the digit/minus/dot run, then
dispatch on the presence of a decimal point to the native float or
integer parser, surfacing a failure as a positioned syntax error. -/
def parseNumber (tks : List TP) (idx : Nat) : Except PErr (JsonValue × Nat) :=
  let collected := digitsToString tks idx
  if collected.1.data.contains '.' then
    match rustParseF64 collected.1 with
    | some f => .ok (JsonValue.float f, collected.2)
    | none => .error (errAt tks collected.2 "failed to parse float")
  else
    match rustParseI64 collected.1 with
    | some i => .ok (JsonValue.int i, collected.2)
    | none => .error (errAt tks collected.2 "failed to parse integer")

/-- The five mutually recursive grammar productions of `parse.rs`,
packaged at one fuel level.  The package recurses structurally on fuel
(see `parseFns`), so concrete runs reduce definitionally. -/
structure ParseFns where
  pObject : Nat → Except PErr (JsonValue × Nat)
  pObjectLoop : Nat → List JsonValue → Except PErr (List JsonValue × Nat)
  pKeyedObject : Nat → Except PErr (JsonValue × Nat)
  pArray : Nat → Except PErr (JsonValue × Nat)
  pArrayLoop : Nat → List JsonValue → Except PErr (List JsonValue × Nat)

/-- The mutual recursion of `parse_object` / `parse_keyed_object` /
`parse_array` (with their `while` loops as recursive helpers), built by
structural recursion on the fuel.  Each body is the direct transcription
of the corresponding Rust method:

* `pObject` (`Parser::parse_object`): the discarded `assert_current`
  result of the early `{}` check still propagates a panic, since a Rust
  panic unwinds through `is_ok()`.
* `pObjectLoop` (the member `while` loop): when the member parse fails,
  the source still runs `last_token`/`next_token` before propagating via
  `objs.push(json?)`; the surfaced message is the member's own error in
  every reachable case (a positioned member error implies `next_token`
  succeeds, and an end-of-file member error implies `next_token` fails
  with the identical end-of-file message), so it is propagated directly.
* `pKeyedObject` (`Parser::parse_keyed_object`).
* `pArray` (`Parser::parse_array`).
* `pArrayLoop` (the element `while` loop): both exits — the loop
  condition seeing `]`, and the in-body `break` on `]` — leave the index
  at the closing bracket, matching the source. -/
def parseFns (tks : List TP) : Nat → ParseFns
  | 0 =>
    { pObject := fun _ => .error .fuelOut
      pObjectLoop := fun _ _ => .error .fuelOut
      pKeyedObject := fun _ => .error .fuelOut
      pArray := fun _ => .error .fuelOut
      pArrayLoop := fun _ _ => .error .fuelOut }
  | fuel + 1 =>
    let prev := parseFns tks fuel
    { pObject := fun idx =>
        match assertCurrent tks idx [Token.leftCurly] with
        | .error e => .error e
        | .ok _ =>
        match nextToken tks idx with
        | .error e => .error e
        | .ok idx =>
        match assertCurrent tks idx [Token.rightCurly] with
        | .ok _ =>
          (match nextToken tks idx with
           | .error e => .error e
           | .ok idx => .ok (JsonValue.empty, idx))
        | .error .panicked => .error .panicked
        | .error .fuelOut => .error .fuelOut
        | .error (.syn _) =>
          match prev.pObjectLoop idx [] with
          | .error e => .error e
          | .ok (objs, idx) =>
            .ok (if objs.isEmpty then JsonValue.empty else JsonValue.object objs, idx)
      pObjectLoop := fun idx objs =>
        match assertCurrent tks idx [Token.rightCurly, Token.rightBracket] with
        | .ok _ => .ok (objs, idx)
        | .error .panicked => .error .panicked
        | .error .fuelOut => .error .fuelOut
        | .error (.syn _) =>
          match assertCurrent tks idx [Token.quote, Token.comma] with
          | .error e => .error e
          | .ok _ =>
          match currentToken tks idx with
          | .error e => .error e
          | .ok (next, _) =>
            match next with
            | Token.comma => .ok (objs, idx)
            | Token.quote =>
              (match prev.pKeyedObject idx with
               | .error e => .error e
               | .ok (json, idx) =>
                 match (if !(lastToken tks idx) then nextToken tks idx else .ok idx) with
                 | .error e => .error e
                 | .ok idx => prev.pObjectLoop idx (objs ++ [json]))
            | _ => .error (errAt tks idx "unterminated object")
      pKeyedObject := fun idx =>
        match parseKey tks idx with
        | .error e => .error e
        | .ok (key, idx) =>
        match assertCurrent tks idx [Token.colon] with
        | .error e => .error e
        | .ok _ =>
        match nextToken tks idx with
        | .error e => .error e
        | .ok idx =>
        match currentToken tks idx with
        | .error e => .error e
        | .ok (next, _) =>
          match (match next with
                 | Token.leftCurly => prev.pObject idx
                 | Token.quote => parseStringLiteral tks idx
                 | Token.char 't' => parseBool tks idx
                 | Token.char 'f' => parseBool tks idx
                 | Token.digit _ => parseNumber tks idx
                 | Token.minus => parseNumber tks idx
                 | Token.leftBracket => prev.pArray idx
                 | _ => .error (errAt tks idx "unexpected token while parsing object")) with
          | .error e => .error e
          | .ok (v, idx) => .ok (JsonValue.keyedObject key v, idx)
      pArray := fun idx =>
        match prev.pArrayLoop idx [] with
        | .error e => .error e
        | .ok (arr, idx) =>
          match nextToken tks idx with
          | .error e => .error e
          | .ok idx => .ok (JsonValue.arr arr, idx)
      pArrayLoop := fun idx arr =>
        match currentToken tks idx with
        | .error e => .error e
        | .ok (t, _) =>
          if t == Token.rightBracket then .ok (arr, idx)
          else
            match nextToken tks idx with
            | .error e => .error e
            | .ok idx =>
            match currentToken tks idx with
            | .error e => .error e
            | .ok (next, _) =>
              match next with
              | Token.rightBracket => .ok (arr, idx)
              | _ =>
                match (match next with
                       | Token.leftCurly => prev.pObject idx
                       | Token.quote => parseStringLiteral tks idx
                       | Token.char 't' => parseBool tks idx
                       | Token.char 'f' => parseBool tks idx
                       | Token.digit _ => parseNumber tks idx
                       | Token.minus => parseNumber tks idx
                       | Token.leftBracket => prev.pArray idx
                       | _ => .error (errAt tks idx "unexpected token while parsing array")) with
                | .error e => .error e
                | .ok (v, idx) => prev.pArrayLoop idx (arr ++ [v]) }

/-- `Parser::parse_object` at a given fuel. -/
def parseObject (tks : List TP) (fuel idx : Nat) : Except PErr (JsonValue × Nat) :=
  (parseFns tks fuel).pObject idx

/-- The member-collection `while` loop of `parse_object` at a given fuel. -/
def parseObjectLoop (tks : List TP) (fuel idx : Nat) (objs : List JsonValue) :
    Except PErr (List JsonValue × Nat) :=
  (parseFns tks fuel).pObjectLoop idx objs

/-- `Parser::parse_keyed_object` at a given fuel. -/
def parseKeyedObject (tks : List TP) (fuel idx : Nat) : Except PErr (JsonValue × Nat) :=
  (parseFns tks fuel).pKeyedObject idx

/-- `Parser::parse_array` at a given fuel. -/
def parseArray (tks : List TP) (fuel idx : Nat) : Except PErr (JsonValue × Nat) :=
  (parseFns tks fuel).pArray idx

/-- The element-collection `while` loop of `parse_array` at a given fuel. -/
def parseArrayLoop (tks : List TP) (fuel idx : Nat) (arr : List JsonValue) :
    Except PErr (List JsonValue × Nat) :=
  (parseFns tks fuel).pArrayLoop idx arr

/-- The fuel budget supplied by `Parser.parse`; ample for every run
exercised by a theorem (each fuel level spent accompanies cursor
progress). -/
def fuelFor (tks : List TP) : Nat := 2 * tks.length + 4

/-- `Parser::parse`: strip whitespace/newline tokens, then dispatch on
the first remaining token. -/
def Parser.parse (p : Parser) : Except PErr JsonValue :=
  let tks := removeWhitespace p.tokens
  match currentToken tks p.idx with
  | .error e => .error e
  | .ok (first, _) =>
    match first with
    | Token.leftBracket => (parseArray tks (fuelFor tks) p.idx).map Prod.fst
    | Token.leftCurly => (parseObject tks (fuelFor tks) p.idx).map Prod.fst
    | _ => .error (errAt tks p.idx "invalid JSON document")

/-- The whole pipeline of `main.rs`: tokenize, then parse with a fresh
parser.  The tokenizer's error arm is dead code (`tokenize` always
returns `ok`), kept only to consume the `Result`. -/
def parseDoc (s : String) : Except PErr JsonValue :=
  match tokenize s with
  | .ok toks => (Parser.new toks).parse
  | .error _ => .error (.syn "tokenizer error")

/-! ## Specification-side definitions

Definitions below express what the claims say, to be compared with the
embedding above, plus render functions that generate the input families
the universal claims quantify over. -/

/-- The position-attachment discipline the spec claims: each consumed
character advances the column by one; a newline character instead
resets the column to 1 and increments the line by 1. -/
def specPosStep (pos : Position) (c : Char) : Position :=
  if c = '\n' then ⟨pos.line + 1, 1⟩ else ⟨pos.line, pos.col + 1⟩

/-- The positions the spec claims for each character of a suffix,
starting from a given counter state. -/
def specPositionsAux (pos : Position) : List Char → List Position
  | [] => []
  | c :: cs => specPosStep pos c :: specPositionsAux (specPosStep pos c) cs

/-- The positions the spec claims for a whole input: the counter starts
at line 1 (column 0, before any character is consumed). -/
def specPositions (s : String) : List Position :=
  specPositionsAux ⟨1, 0⟩ s.data

/-- The error-message contract of the spec: either the end-of-file
variant, or `"Syntax error: <message> at line <L> column <C>"` with the
position of a token of the stream. -/
def ErrShapeOf (tps : List TP) (m : String) : Prop :=
  m = "Syntax error: unexpected end of file" ∨
  ∃ msg tp, tp ∈ tps ∧
    m = "Syntax error: " ++ msg ++ " at line " ++ toString tp.2.line ++
      " column " ++ toString tp.2.col

/-- A character allowed inside a quoted string literal by the grammar
as implemented (anything but a newline and the closing quote). -/
def strOkChar (c : Char) : Prop := c ≠ '\n' ∧ c ≠ '"'

/-- The token the tokenizer assigns (outside a string) to a character
of a number run. -/
def numTok (c : Char) : Token :=
  if c = '-' then Token.minus else if c = '.' then Token.dot else Token.digit c

/-- Render one keyed member `"key": d` with a single-digit value. -/
def renderMember (m : List Char × Char) : List Char :=
  '"' :: m.1 ++ ['"', ':', ' ', m.2]

/-- Render a comma-separated member list. -/
def renderMembers : List (List Char × Char) → List Char
  | [] => []
  | [m] => renderMember m
  | m :: ms => renderMember m ++ [',', ' '] ++ renderMembers ms

/-- Render an object literal `{"k1": d1, "k2": d2, ...}`. -/
def renderObject (ms : List (List Char × Char)) : List Char :=
  '{' :: (renderMembers ms ++ ['}'])

/-- A well-formed rendered member: key characters legal inside a string
literal, value a digit. -/
def memberOk (m : List Char × Char) : Prop :=
  (∀ c ∈ m.1, strOkChar c) ∧ m.2.isDigit

/-- The token pattern of one keyed member with a digit value. -/
def memPat (m : List Char × Char) : List Token :=
  Token.quote :: m.1.map Token.char ++ [Token.quote, Token.colon, Token.digit m.2]

/-- The token pattern the member loop of `parse_object` consumes: the
members separated by commas, closed by the final right brace. -/
def objTail : List (List Char × Char) → List Token
  | [] => [Token.rightCurly]
  | m :: ms =>
    memPat m ++ (match ms with | [] => [] | _ => [Token.comma]) ++ objTail ms

/-- The value `parse` is expected to build for one rendered member. -/
def memberValue (m : List Char × Char) : JsonValue :=
  JsonValue.keyedObject ⟨m.1⟩ (JsonValue.int ((m.2.toNat - 48 : Nat) : Int))

/-! ## General lemmas about the tokenizer -/

theorem specPosStep_of_ne (pos : Position) {c : Char} (h : c ≠ '\n') :
    specPosStep pos c = ⟨pos.line, pos.col + 1⟩ :=
  if_neg h

theorem specPosStep_newline (pos : Position) :
    specPosStep pos '\n' = ⟨pos.line + 1, 1⟩ :=
  if_pos rfl

theorem posStep_eq_specPosStep (pos : Position) (c : Char) :
    posStep pos c = specPosStep pos c := by
  by_cases h : c = '\n' <;>
    simp [posStep, specPosStep, nextCharPos, newLinePos, h]

theorem tokenizeAux_length (cs : List Char) : ∀ (b : Bool) (pos : Position),
    (tokenizeAux b pos cs).length = cs.length := by
  induction cs with
  | nil => intro b pos; rfl
  | cons c cs ih => intro b pos; simp [tokenizeAux, ih]

theorem tokenizeAux_snd (cs : List Char) : ∀ (b : Bool) (pos : Position),
    (tokenizeAux b pos cs).map Prod.snd = specPositionsAux pos cs := by
  induction cs with
  | nil => intro b pos; rfl
  | cons c cs ih =>
    intro b pos
    simp [tokenizeAux, specPositionsAux, ih, posStep_eq_specPosStep]

/-- The in-string flag after consuming a list of characters. -/
def flagAfter (b : Bool) (cs : List Char) : Bool :=
  cs.foldl (fun b c => (classify b c).2) b

/-- The position counter after consuming a list of characters. -/
def posAfter (pos : Position) (cs : List Char) : Position :=
  cs.foldl posStep pos

theorem tokenizeAux_append (xs : List Char) : ∀ (ys : List Char) (b : Bool) (pos : Position),
    tokenizeAux b pos (xs ++ ys) =
      tokenizeAux b pos xs ++ tokenizeAux (flagAfter b xs) (posAfter pos xs) ys := by
  induction xs with
  | nil => intro ys b pos; rfl
  | cons x xs ih =>
    intro ys b pos
    simp [tokenizeAux, flagAfter, posAfter, List.foldl_cons, ih]

theorem classify_instring {c : Char} (h : strOkChar c) :
    classify true c = (Token.char c, true) := by
  simp [classify, h.1, h.2]

theorem char_ne_of_isDigit {c x : Char} (h : c.isDigit) (hx : ¬ x.isDigit) : c ≠ x := by
  intro he; subst he; exact hx h

theorem digit_range {c : Char} (h : c.isDigit) : '0' ≤ c ∧ c ≤ '9' := by
  simp only [Char.isDigit, ge_iff_le, Bool.and_eq_true, decide_eq_true_eq] at h
  exact ⟨h.1, h.2⟩

theorem classify_digit {c : Char} (h : c.isDigit) :
    classify false c = (Token.digit c, false) := by
  unfold classify
  rw [if_neg (show ¬(false = true) by decide),
    if_neg (char_ne_of_isDigit h (by decide)), if_neg (char_ne_of_isDigit h (by decide)),
    if_neg (char_ne_of_isDigit h (by decide)), if_neg (char_ne_of_isDigit h (by decide)),
    if_neg (char_ne_of_isDigit h (by decide)), if_neg (char_ne_of_isDigit h (by decide)),
    if_neg (char_ne_of_isDigit h (by decide)), if_neg (char_ne_of_isDigit h (by decide)),
    if_neg (char_ne_of_isDigit h (by decide)),
    if_neg (fun hc : c = ' ' ∨ c = '\t' =>
      hc.elim (fun he => absurd h (by rw [he]; decide))
        (fun he => absurd h (by rw [he]; decide))),
    if_neg (char_ne_of_isDigit h (by decide)),
    if_pos (digit_range h)]

theorem numTok_digit {c : Char} (h : c.isDigit) : numTok c = Token.digit c := by
  rw [numTok, if_neg (show c ≠ '-' from char_ne_of_isDigit h (by decide)),
    if_neg (show c ≠ '.' from char_ne_of_isDigit h (by decide))]

theorem classify_numRun {c : Char} (h : c.isDigit ∨ c = '-' ∨ c = '.') :
    classify false c = (numTok c, false) := by
  rcases h with h | rfl | rfl
  · rw [classify_digit h, numTok_digit h]
  · rfl
  · rfl

theorem tokenizeAux_chars (ks : List Char) : ∀ (pos : Position), (∀ c ∈ ks, strOkChar c) →
    (tokenizeAux true pos ks).map Prod.fst = ks.map Token.char := by
  induction ks with
  | nil => intro pos _; rfl
  | cons k ks ih =>
    intro pos h
    have hk := h k (by simp)
    simp [tokenizeAux, classify_instring hk, ih _ (fun c hc => h c (by simp [hc]))]

theorem flagAfter_chars (ks : List Char) : (∀ c ∈ ks, strOkChar c) →
    flagAfter true ks = true := by
  induction ks with
  | nil => intro _; rfl
  | cons k ks ih =>
    intro h
    have hk := h k (by simp)
    simp only [flagAfter, List.foldl_cons] at *
    rw [classify_instring hk]
    exact ih (fun c hc => h c (by simp [hc]))

theorem tokenizeAux_numRun (s : List Char) : ∀ (pos : Position),
    (∀ c ∈ s, c.isDigit ∨ c = '-' ∨ c = '.') →
    (tokenizeAux false pos s).map Prod.fst = s.map numTok := by
  induction s with
  | nil => intro pos _; rfl
  | cons k s ih =>
    intro pos h
    have hk := h k (by simp)
    simp [tokenizeAux, classify_numRun hk, ih _ (fun c hc => h c (by simp [hc]))]

theorem flagAfter_numRun (s : List Char) : (∀ c ∈ s, c.isDigit ∨ c = '-' ∨ c = '.') →
    flagAfter false s = false := by
  induction s with
  | nil => intro _; rfl
  | cons k s ih =>
    intro h
    have hk := h k (by simp)
    simp only [flagAfter, List.foldl_cons] at *
    rw [classify_numRun hk]
    exact ih (fun c hc => h c (by simp [hc]))

/-! ## List and cursor helper lemmas -/

theorem map_fst_append_split {tps : List TP} {pre suf : List Token}
    (h : tps.map Prod.fst = pre ++ suf) :
    ∃ tps1 tps2, tps = tps1 ++ tps2 ∧ tps1.map Prod.fst = pre ∧ tps2.map Prod.fst = suf := by
  induction pre generalizing tps with
  | nil => exact ⟨[], tps, rfl, rfl, h⟩
  | cons t pre ih =>
    cases tps with
    | nil => simp at h
    | cons tp tps =>
      simp only [List.map_cons, List.cons_append, List.cons.injEq] at h
      obtain ⟨tps1, tps2, rfl, h1, h2⟩ := ih h.2
      exact ⟨tp :: tps1, tps2, rfl, by simp [h.1, h1], h2⟩

theorem map_fst_cons_split {tps : List TP} {t : Token} {suf : List Token}
    (h : tps.map Prod.fst = t :: suf) :
    ∃ p tps2, tps = (t, p) :: tps2 ∧ tps2.map Prod.fst = suf := by
  cases tps with
  | nil => simp at h
  | cons tp tps =>
    simp only [List.map_cons, List.cons.injEq] at h
    exact ⟨tp.2, tps, by rw [← h.1], h.2⟩

theorem currentToken_at (tpre : List TP) (tp : TP) (trest : List TP) :
    currentToken (tpre ++ tp :: trest) tpre.length = .ok tp := by
  rw [currentToken, List.get?_append_right (Nat.le_refl _)]
  simp

theorem nextToken_at {tks : List TP} {idx : Nat} (h : idx < tks.length) :
    nextToken tks idx = .ok (idx + 1) := by
  rw [nextToken, if_neg (by omega)]

theorem errAt_is_syn (tks : List TP) (idx : Nat) (msg : String) :
    ∃ m, errAt tks idx msg = .syn m := by
  rw [errAt]
  cases tks.get? idx <;> exact ⟨_, rfl⟩

theorem assertCurrent_pass {tks : List TP} {idx : Nat} {tp : TP} {expected : List Token}
    (hc : currentToken tks idx = .ok tp)
    (h : expected.any (fun ex => tokenMatches ex tp.1) = true) :
    assertCurrent tks idx expected = .ok () := by
  rw [assertCurrent, hc]
  simp [h]

theorem assertCurrent_syn (expected : List Token) {tks : List TP} {idx : Nat} {tp : TP}
    (hc : currentToken tks idx = .ok tp)
    (h : expected.any (fun ex => tokenMatches ex tp.1) = false)
    (hd : (expected.mapM Token.display).isSome = true)
    (hg : tp.1.display.isSome = true) :
    ∃ m, assertCurrent tks idx expected = .error (.syn m) := by
  obtain ⟨ds, hds⟩ := Option.isSome_iff_exists.mp hd
  obtain ⟨g, hgg⟩ := Option.isSome_iff_exists.mp hg
  obtain ⟨m, hm⟩ :=
    errAt_is_syn tks idx ("expected " ++ String.intercalate ", " ds ++ " but got " ++ g)
  refine ⟨m, ?_⟩
  rw [assertCurrent, hc]
  simp only [h, Bool.false_eq_true, if_false, hds, hgg]
  exact congrArg Except.error hm

theorem charsFrom_pattern (ks : List Char) :
    ∀ (tps : List TP) (p : Position) (rest : List TP),
    tps.map Prod.fst = ks.map Token.char →
    charsFrom (tps ++ (Token.quote, p) :: rest) = ks := by
  induction ks with
  | nil =>
    intro tps p rest h
    simp only [List.map_nil, List.map_eq_nil_iff] at h
    subst h
    rfl
  | cons k ks ih =>
    intro tps p rest h
    rw [List.map_cons] at h
    obtain ⟨q, tps2, rfl, h2⟩ := map_fst_cons_split h
    simp only [List.cons_append, charsFrom, List.append_eq]
    rw [ih tps2 p rest h2]

/-- Does a token continue a digit run (`digits_to_string` keeps going)? -/
def numCont : Token → Bool
  | Token.digit _ => true
  | Token.minus => true
  | Token.dot => true
  | _ => false

theorem digitsFrom_nil_of_stop {tps : List TP}
    (h : ∀ hd ∈ tps.head?, numCont hd.1 = false) : digitsFrom tps = [] := by
  cases tps with
  | nil => rfl
  | cons hd tl =>
    have := h hd (by simp)
    obtain ⟨t, p⟩ := hd
    cases t <;> simp_all [digitsFrom, numCont]

theorem digitsFrom_pattern (s : List Char) : ∀ (tps rest : List TP),
    tps.map Prod.fst = s.map numTok →
    (∀ c ∈ s, c.isDigit ∨ c = '-' ∨ c = '.') →
    (∀ hd ∈ rest.head?, numCont hd.1 = false) →
    digitsFrom (tps ++ rest) = s := by
  induction s with
  | nil =>
    intro tps rest h _ hstop
    simp only [List.map_nil, List.map_eq_nil_iff] at h
    subst h
    exact digitsFrom_nil_of_stop hstop
  | cons c s ih =>
    intro tps rest h hall hstop
    rw [List.map_cons] at h
    obtain ⟨q, tps2, rfl, h2⟩ := map_fst_cons_split h
    have hrec := ih tps2 rest h2 (fun x hx => hall x (by simp [hx])) hstop
    rcases hall c (by simp) with hd | rfl | rfl
    · rw [numTok_digit hd]
      simp only [List.cons_append, digitsFrom, List.append_eq]
      rw [hrec]
    · simp only [numTok, if_pos rfl, List.cons_append, digitsFrom, List.append_eq]
      rw [hrec]
    · simp only [numTok, if_neg (by decide : ('.' : Char) ≠ '-'), if_pos rfl,
        List.cons_append, digitsFrom, List.append_eq]
      rw [hrec]

/-! ## Trace lemmas for the non-recursive productions -/

theorem parseKey_trace {tks tpre tkey trest : List TP} {ks : List Char}
    (hsplit : tks = tpre ++ tkey ++ trest)
    (hpat : tkey.map Prod.fst = Token.quote :: ks.map Token.char ++ [Token.quote])
    (hrest : trest ≠ []) :
    parseKey tks tpre.length = .ok (⟨ks⟩, tpre.length + ks.length + 2) := by
  obtain ⟨p1, tk2, rfl, hp2⟩ := map_fst_cons_split hpat
  obtain ⟨tchars, tq2, rfl, hcs, hq⟩ := map_fst_append_split hp2
  obtain ⟨p2, tnil, rfl, hnil⟩ := map_fst_cons_split hq
  rw [List.map_eq_nil] at hnil
  subst hnil
  have hlen : tchars.length = ks.length := by
    have := congrArg List.length hcs; simpa using this
  subst hsplit
  have hshape : tpre ++ ((Token.quote, p1) :: (tchars ++ [(Token.quote, p2)])) ++ trest =
      tpre ++ (Token.quote, p1) :: (tchars ++ (Token.quote, p2) :: trest) := by
    simp
  rw [hshape]
  have hc1 : currentToken (tpre ++ (Token.quote, p1) :: (tchars ++ (Token.quote, p2) :: trest))
      tpre.length = .ok (Token.quote, p1) := currentToken_at tpre _ _
  obtain ⟨m, hsyn⟩ := assertCurrent_syn [Token.comma] hc1 (by rfl) (by rfl) (by rfl)
  have hpass1 : assertCurrent (tpre ++ (Token.quote, p1) :: (tchars ++ (Token.quote, p2) :: trest))
      tpre.length [Token.quote] = .ok () := assertCurrent_pass hc1 (by rfl)
  have hlt1 : tpre.length <
      (tpre ++ (Token.quote, p1) :: (tchars ++ (Token.quote, p2) :: trest)).length := by
    simp only [List.length_append, List.length_cons]
    omega
  have hdrop : (tpre ++ (Token.quote, p1) :: (tchars ++ (Token.quote, p2) :: trest)).drop
      (tpre.length + 1) = tchars ++ (Token.quote, p2) :: trest := by
    have : tpre ++ (Token.quote, p1) :: (tchars ++ (Token.quote, p2) :: trest) =
        (tpre ++ [(Token.quote, p1)]) ++ (tchars ++ (Token.quote, p2) :: trest) := by simp
    rw [this]
    have hl : (tpre ++ [(Token.quote, p1)]).length = tpre.length + 1 := by simp
    rw [← hl, List.drop_left]
  have hchars : charsToString (tpre ++ (Token.quote, p1) :: (tchars ++ (Token.quote, p2) :: trest))
      (tpre.length + 1) = (⟨ks⟩, tpre.length + 1 + ks.length) := by
    rw [charsToString, hdrop, charsFrom_pattern ks tchars p2 trest hcs]
  have hc2 : currentToken (tpre ++ (Token.quote, p1) :: (tchars ++ (Token.quote, p2) :: trest))
      (tpre.length + 1 + ks.length) = .ok (Token.quote, p2) := by
    have : tpre ++ (Token.quote, p1) :: (tchars ++ (Token.quote, p2) :: trest) =
        (tpre ++ (Token.quote, p1) :: tchars) ++ (Token.quote, p2) :: trest := by simp
    rw [this]
    have hl : (tpre ++ (Token.quote, p1) :: tchars).length = tpre.length + 1 + ks.length := by
      simp only [List.length_append, List.length_cons]
      omega
    rw [← hl]
    exact currentToken_at _ _ _
  have hpass2 : assertCurrent (tpre ++ (Token.quote, p1) :: (tchars ++ (Token.quote, p2) :: trest))
      (tpre.length + 1 + ks.length) [Token.quote] = .ok () := assertCurrent_pass hc2 (by rfl)
  have hlt2 : tpre.length + 1 + ks.length <
      (tpre ++ (Token.quote, p1) :: (tchars ++ (Token.quote, p2) :: trest)).length := by
    rcases trest with _ | ⟨u, us⟩
    · exact absurd rfl hrest
    · simp only [List.length_append, List.length_cons]
      omega
  simp only [parseKey, hsyn, nextToken_at hlt1, hc1, hpass1, hchars, hpass2, nextToken_at hlt2]
  have harith : tpre.length + 1 + ks.length + 1 = tpre.length + ks.length + 2 := by omega
  rw [harith]

theorem parseStringLiteral_trace {tks tpre tstr trest : List TP} {ks : List Char}
    (hsplit : tks = tpre ++ tstr ++ trest)
    (hpat : tstr.map Prod.fst = Token.quote :: ks.map Token.char ++ [Token.quote])
    (hrest : trest ≠ []) :
    parseStringLiteral tks tpre.length =
      .ok (JsonValue.str ⟨ks⟩, tpre.length + ks.length + 2) := by
  obtain ⟨p1, tk2, rfl, hp2⟩ := map_fst_cons_split hpat
  obtain ⟨tchars, tq2, rfl, hcs, hq⟩ := map_fst_append_split hp2
  obtain ⟨p2, tnil, rfl, hnil⟩ := map_fst_cons_split hq
  simp only [List.map_eq_nil_iff] at hnil
  subst hnil
  have hlen : tchars.length = ks.length := by
    have := congrArg List.length hcs; simpa using this
  subst hsplit
  have hshape : tpre ++ ((Token.quote, p1) :: (tchars ++ [(Token.quote, p2)])) ++ trest =
      tpre ++ (Token.quote, p1) :: (tchars ++ (Token.quote, p2) :: trest) := by
    simp
  rw [hshape]
  have hc1 : currentToken (tpre ++ (Token.quote, p1) :: (tchars ++ (Token.quote, p2) :: trest))
      tpre.length = .ok (Token.quote, p1) := currentToken_at tpre _ _
  have hpass1 : assertCurrent (tpre ++ (Token.quote, p1) :: (tchars ++ (Token.quote, p2) :: trest))
      tpre.length [Token.quote] = .ok () := assertCurrent_pass hc1 (by rfl)
  have hlt1 : tpre.length <
      (tpre ++ (Token.quote, p1) :: (tchars ++ (Token.quote, p2) :: trest)).length := by
    simp only [List.length_append, List.length_cons]
    omega
  have hdrop : (tpre ++ (Token.quote, p1) :: (tchars ++ (Token.quote, p2) :: trest)).drop
      (tpre.length + 1) = tchars ++ (Token.quote, p2) :: trest := by
    have : tpre ++ (Token.quote, p1) :: (tchars ++ (Token.quote, p2) :: trest) =
        (tpre ++ [(Token.quote, p1)]) ++ (tchars ++ (Token.quote, p2) :: trest) := by simp
    rw [this]
    have hl : (tpre ++ [(Token.quote, p1)]).length = tpre.length + 1 := by simp
    rw [← hl, List.drop_left]
  have hchars : charsToString (tpre ++ (Token.quote, p1) :: (tchars ++ (Token.quote, p2) :: trest))
      (tpre.length + 1) = (⟨ks⟩, tpre.length + 1 + ks.length) := by
    rw [charsToString, hdrop, charsFrom_pattern ks tchars p2 trest hcs]
  have hc2 : currentToken (tpre ++ (Token.quote, p1) :: (tchars ++ (Token.quote, p2) :: trest))
      (tpre.length + 1 + ks.length) = .ok (Token.quote, p2) := by
    have : tpre ++ (Token.quote, p1) :: (tchars ++ (Token.quote, p2) :: trest) =
        (tpre ++ (Token.quote, p1) :: tchars) ++ (Token.quote, p2) :: trest := by simp
    rw [this]
    have hl : (tpre ++ (Token.quote, p1) :: tchars).length = tpre.length + 1 + ks.length := by
      simp only [List.length_append, List.length_cons]
      omega
    rw [← hl]
    exact currentToken_at _ _ _
  have hpass2 : assertCurrent (tpre ++ (Token.quote, p1) :: (tchars ++ (Token.quote, p2) :: trest))
      (tpre.length + 1 + ks.length) [Token.quote] = .ok () := assertCurrent_pass hc2 (by rfl)
  have hlt2 : tpre.length + 1 + ks.length <
      (tpre ++ (Token.quote, p1) :: (tchars ++ (Token.quote, p2) :: trest)).length := by
    rcases trest with _ | ⟨u, us⟩
    · exact absurd rfl hrest
    · simp only [List.length_append, List.length_cons]
      omega
  simp only [parseStringLiteral, hpass1, nextToken_at hlt1, hchars, hpass2, nextToken_at hlt2]
  have harith : tpre.length + 1 + ks.length + 1 = tpre.length + ks.length + 2 := by omega
  rw [harith]

theorem parseNumber_trace {tks tpre tnum trest : List TP} {s : List Char}
    (hsplit : tks = tpre ++ tnum ++ trest)
    (hpat : tnum.map Prod.fst = s.map numTok)
    (hall : ∀ c ∈ s, c.isDigit ∨ c = '-' ∨ c = '.')
    (hstop : ∀ hd2 ∈ trest.head?, numCont hd2.1 = false) :
    parseNumber tks tpre.length =
      if s.contains '.' then
        match rustParseF64 ⟨s⟩ with
        | some f => .ok (JsonValue.float f, tpre.length + s.length)
        | none => .error (errAt tks (tpre.length + s.length) "failed to parse float")
      else
        match rustParseI64 ⟨s⟩ with
        | some i => .ok (JsonValue.int i, tpre.length + s.length)
        | none => .error (errAt tks (tpre.length + s.length) "failed to parse integer") := by
  subst hsplit
  have hdrop : ((tpre ++ tnum) ++ trest).drop tpre.length = tnum ++ trest := by
    rw [List.append_assoc, List.drop_left]
  have hdigits : digitsToString ((tpre ++ tnum) ++ trest) tpre.length =
      (⟨s⟩, tpre.length + s.length) := by
    rw [digitsToString, hdrop, digitsFrom_pattern s tnum trest hpat hall hstop]
  simp only [parseNumber, hdigits]

theorem removeWhitespace_append (l1 l2 : List TP) :
    removeWhitespace (l1 ++ l2) = removeWhitespace l1 ++ removeWhitespace l2 :=
  List.filter_append l1 l2

theorem removeWhitespace_keep {tps : List TP}
    (h : ∀ tp ∈ tps, tp.1 ≠ Token.whitespace ∧ tp.1 ≠ Token.newLine) :
    removeWhitespace tps = tps := by
  rw [removeWhitespace, List.filter_eq_self]
  intro tp htp
  obtain ⟨h1, h2⟩ := h tp htp
  simp only [Bool.and_eq_true, Bool.not_eq_true']
  exact ⟨beq_eq_false_iff_ne.mpr h1, beq_eq_false_iff_ne.mpr h2⟩

theorem removeWhitespace_chars {tps : List TP} {ks : List Char}
    (h : tps.map Prod.fst = ks.map Token.char) : removeWhitespace tps = tps := by
  apply removeWhitespace_keep
  intro tp htp
  have : tp.1 ∈ ks.map Token.char := h ▸ List.mem_map_of_mem Prod.fst htp
  obtain ⟨c, _, hc⟩ := List.mem_map.mp this
  rw [← hc]
  exact ⟨by simp, by simp⟩

theorem removeWhitespace_numRun {tps : List TP} {s : List Char}
    (h : tps.map Prod.fst = s.map numTok) : removeWhitespace tps = tps := by
  apply removeWhitespace_keep
  intro tp htp
  have : tp.1 ∈ s.map numTok := h ▸ List.mem_map_of_mem Prod.fst htp
  obtain ⟨c, _, hc⟩ := List.mem_map.mp this
  rw [← hc, numTok]
  split_ifs <;> exact ⟨by simp, by simp⟩
theorem toNat_bounds_of_isDigit {c : Char} (h : c.isDigit) :
    48 ≤ c.toNat ∧ c.toNat ≤ 57 := by
  simp only [Char.isDigit, ge_iff_le, Bool.and_eq_true, decide_eq_true_eq] at h
  obtain ⟨h1, h2⟩ := h
  exact ⟨UInt32.le_toNat_of_le (by norm_num [UInt32.size]) h1,
    UInt32.toNat_le_of_le (by norm_num [UInt32.size]) h2⟩

theorem rustParseI64_digit {d : Char} (h : d.isDigit) :
    rustParseI64 ⟨[d]⟩ = some ((d.toNat - 48 : Nat) : Int) := by
  obtain ⟨hb1, hb2⟩ := toNat_bounds_of_isDigit h
  have h1 : d ≠ '-' := char_ne_of_isDigit h (by decide)
  have h2 : d ≠ '+' := char_ne_of_isDigit h (by decide)
  rw [rustParseI64]
  simp only [if_neg h1, if_neg h2]
  rw [if_neg (by simp : ¬(([d] : List Char) = []))]
  rw [if_pos (by simp [h] : ([d].all (fun d => d.isDigit)) = true)]
  rw [if_pos (by simp only [List.foldl_cons, List.foldl_nil]; constructor <;> omega)]
  simp

theorem contains_dot_single {d : Char} (h : d.isDigit) :
    ([d].contains '.') = false := by
  have hd : d ≠ '.' := char_ne_of_isDigit h (by decide)
  simp [hd, Ne.symm hd]

theorem parseKeyedObject_digit {tks tpre tkey trest : List TP} {ks : List Char} {d : Char}
    {p3 p4 : Position} {fuel : Nat}
    (hsplit : tks = tpre ++ (tkey ++ [(Token.colon, p3), (Token.digit d, p4)]) ++ trest)
    (hkey : tkey.map Prod.fst = Token.quote :: ks.map Token.char ++ [Token.quote])
    (hd : d.isDigit)
    (hstop : ∀ hd2 ∈ trest.head?, numCont hd2.1 = false) :
    parseKeyedObject tks (fuel + 1) tpre.length =
      .ok (memberValue (ks, d), tpre.length + ks.length + 4) := by
  have hklen : tkey.length = ks.length + 2 := by
    have := congrArg List.length hkey; simpa using this
  have hkeyres : parseKey tks tpre.length = .ok (⟨ks⟩, tpre.length + ks.length + 2) :=
    @parseKey_trace tks tpre tkey ((Token.colon, p3) :: (Token.digit d, p4) :: trest) ks
      (by rw [hsplit]; simp) hkey (by simp)
  have hccolon : currentToken tks (tpre.length + ks.length + 2) = .ok (Token.colon, p3) := by
    have hshape : tks = (tpre ++ tkey) ++ (Token.colon, p3) ::
        ((Token.digit d, p4) :: trest) := by rw [hsplit]; simp
    have hl : (tpre ++ tkey).length = tpre.length + ks.length + 2 := by
      simp [hklen]; omega
    rw [hshape, ← hl]
    exact currentToken_at _ _ _
  have hpassc : assertCurrent tks (tpre.length + ks.length + 2) [Token.colon] = .ok () :=
    assertCurrent_pass hccolon (by rfl)
  have hltc : tpre.length + ks.length + 2 < tks.length := by
    rw [hsplit]; simp [hklen]; omega
  have hcdigit : currentToken tks (tpre.length + ks.length + 3) = .ok (Token.digit d, p4) := by
    have hshape : tks = (tpre ++ tkey ++ [(Token.colon, p3)]) ++ (Token.digit d, p4) :: trest := by
      rw [hsplit]; simp
    have hl : (tpre ++ tkey ++ [(Token.colon, p3)]).length = tpre.length + ks.length + 3 := by
      simp [hklen]; omega
    rw [hshape, ← hl]
    exact currentToken_at _ _ _
  have hnum : parseNumber tks (tpre.length + ks.length + 3) =
      .ok (JsonValue.int ((d.toNat - 48 : Nat) : Int), tpre.length + ks.length + 4) := by
    have hshape : tks = (tpre ++ tkey ++ [(Token.colon, p3)]) ++ [(Token.digit d, p4)] ++ trest := by
      rw [hsplit]; simp
    have hl : (tpre ++ tkey ++ [(Token.colon, p3)]).length = tpre.length + ks.length + 3 := by
      simp [hklen]; omega
    have htr := @parseNumber_trace tks (tpre ++ tkey ++ [(Token.colon, p3)])
      [(Token.digit d, p4)] trest [d] hshape
      (by simp [numTok_digit hd]) (by simp [hd]) hstop
    rw [hl] at htr
    rw [htr, if_neg (by rw [contains_dot_single hd]; simp), rustParseI64_digit hd]
    simp
  simp only [parseKeyedObject, parseFns, hkeyres, hpassc, nextToken_at hltc, hcdigit, hnum]
  rw [memberValue]


/-- One-step unfolding of the member loop at positive fuel. -/
theorem parseObjectLoop_succ (tks : List TP) (fuel idx : Nat) (objs : List JsonValue) :
    parseObjectLoop tks (fuel + 1) idx objs =
      match assertCurrent tks idx [Token.rightCurly, Token.rightBracket] with
      | .ok _ => .ok (objs, idx)
      | .error .panicked => .error .panicked
      | .error .fuelOut => .error .fuelOut
      | .error (.syn _) =>
        match assertCurrent tks idx [Token.quote, Token.comma] with
        | .error e => .error e
        | .ok _ =>
        match currentToken tks idx with
        | .error e => .error e
        | .ok (next, _) =>
          match next with
          | Token.comma => .ok (objs, idx)
          | Token.quote =>
            (match parseKeyedObject tks fuel idx with
             | .error e => .error e
             | .ok (json, idx) =>
               match (if !(lastToken tks idx) then nextToken tks idx else .ok idx) with
               | .error e => .error e
               | .ok idx => parseObjectLoop tks fuel idx (objs ++ [json]))
          | _ => .error (errAt tks idx "unterminated object") := rfl

theorem objTail_cons (m : List Char × Char) (ms : List (List Char × Char)) :
    objTail (m :: ms) =
      ((Token.quote :: m.1.map Token.char ++ [Token.quote]) ++ [Token.colon, Token.digit m.2]) ++
        ((match ms with | [] => [] | _ => [Token.comma]) ++ objTail ms) := by
  cases ms <;> simp [objTail, memPat]

theorem objTail_ne_nil (ms : List (List Char × Char)) : objTail ms ≠ [] := by
  cases ms with
  | nil => simp [objTail]
  | cons m ms => simp [objTail, memPat]

theorem lastToken_true {tks : List TP} {idx : Nat} (h : tks.length = idx + 1) :
    lastToken tks idx = true := by
  rw [lastToken, h]
  simp

theorem lastToken_false {tks : List TP} {idx : Nat} (h : idx + 2 ≤ tks.length) :
    lastToken tks idx = false := by
  rw [lastToken]
  exact beq_eq_false_iff_ne.mpr (by omega)

theorem parseObjectLoop_digit (ms : List (List Char × Char)) :
    ∀ (tpre tbody : List TP) (fuel : Nat) (objs : List JsonValue),
    (∀ m ∈ ms, m.2.isDigit) →
    tbody.map Prod.fst = objTail ms →
    ms.length + 2 ≤ fuel →
    parseObjectLoop (tpre ++ tbody) fuel tpre.length objs =
      .ok (objs ++ ms.map memberValue, (tpre ++ tbody).length - 1) := by
  induction ms with
  | nil =>
    intro tpre tbody fuel objs _ hpat hfuel
    obtain ⟨f, rfl⟩ : ∃ f, fuel = f + 1 := ⟨fuel - 1, by omega⟩
    obtain ⟨p, tnil, htb, hnil⟩ := map_fst_cons_split hpat
    simp only [List.map_eq_nil_iff] at hnil
    subst hnil
    subst htb
    have hc : currentToken (tpre ++ [(Token.rightCurly, p)]) tpre.length =
        .ok (Token.rightCurly, p) := currentToken_at tpre _ _
    have hpass : assertCurrent (tpre ++ [(Token.rightCurly, p)]) tpre.length
        [Token.rightCurly, Token.rightBracket] = .ok () := assertCurrent_pass hc (by rfl)
    rw [parseObjectLoop_succ]
    simp only [hpass]
    simp
  | cons m ms ih =>
    intro tpre tbody fuel objs hdig hpat hfuel
    obtain ⟨f, rfl⟩ : ∃ f, fuel = f + 1 := ⟨fuel - 1, by omega⟩
    obtain ⟨f2, rfl⟩ : ∃ f2, f = f2 + 1 := ⟨f - 1, by omega⟩
    rw [objTail_cons] at hpat
    obtain ⟨tmem, trest0, htb, hmem, hrest0⟩ := map_fst_append_split hpat
    obtain ⟨tkq, tcd, htm, hkq, hcd⟩ := map_fst_append_split hmem
    obtain ⟨p3, tcd2, htc, hcd2⟩ := map_fst_cons_split hcd
    obtain ⟨p4, tcd3, htc2, hcd3⟩ := map_fst_cons_split hcd2
    simp only [List.map_eq_nil_iff] at hcd3
    subst hcd3
    subst htc2
    subst htc
    subst htm
    have hdm := hdig m (by simp)
    have hkqlen : tkq.length = m.1.length + 2 := by
      have := congrArg List.length hkq; simpa using this
    obtain ⟨pq, tkq2, hkqeq, hkq2⟩ := map_fst_cons_split hkq
    -- the big list, seen once and for all through `tbody`
    have hbody : tbody = (tkq ++ [(Token.colon, p3), (Token.digit m.2, p4)]) ++ trest0 := by
      rw [htb]
    have hc : currentToken (tpre ++ tbody) tpre.length = .ok (Token.quote, pq) := by
      have hshape : tpre ++ tbody = tpre ++ (Token.quote, pq) ::
          (tkq2 ++ [(Token.colon, p3), (Token.digit m.2, p4)] ++ trest0) := by
        rw [hbody, hkqeq]; simp
      rw [hshape]
      exact currentToken_at tpre _ _
    obtain ⟨me, hsyn⟩ := assertCurrent_syn [Token.rightCurly, Token.rightBracket] hc
      (by rfl) (by rfl) (by rfl)
    have hpass : assertCurrent (tpre ++ tbody) tpre.length [Token.quote, Token.comma] = .ok () :=
      assertCurrent_pass hc (by rfl)
    have hstop0 : ∀ hd2 ∈ trest0.head?, numCont hd2.1 = false := by
      intro hd2 hhd
      cases ms with
      | nil =>
        simp only at hrest0
        obtain ⟨pr, trest1, hre, _⟩ := map_fst_cons_split (by simpa [objTail] using hrest0)
        rw [hre] at hhd
        simp at hhd
        rw [← hhd]
        rfl
      | cons m2 ms2 =>
        simp only at hrest0
        obtain ⟨pr, trest1, hre, _⟩ := map_fst_cons_split hrest0
        rw [hre] at hhd
        simp at hhd
        rw [← hhd]
        rfl
    have hkeyed : parseKeyedObject (tpre ++ tbody) (f2 + 1) tpre.length =
        .ok (memberValue m, tpre.length + m.1.length + 4) := by
      have := @parseKeyedObject_digit (tpre ++ tbody) tpre tkq trest0 m.1 m.2 p3 p4 f2
        (by rw [hbody]; simp) hkq hdm hstop0
      have hmv : memberValue (m.1, m.2) = memberValue m := by cases m; rfl
      rw [hmv] at this
      exact this
    rw [parseObjectLoop_succ]
    simp only [hsyn, hpass, hc, hkeyed]
    cases ms with
    | nil =>
      simp only at hrest0
      obtain ⟨pr, trest1, hre, htr1⟩ := map_fst_cons_split (by simpa [objTail] using hrest0)
      simp only [List.map_eq_nil_iff] at htr1
      subst htr1
      have hlen : (tpre ++ tbody).length = (tpre.length + m.1.length + 4) + 1 := by
        rw [hbody, hre]
        simp [hkqlen]
        omega
      have hlast : lastToken (tpre ++ tbody) (tpre.length + m.1.length + 4) = true :=
        lastToken_true hlen
      have hrec := ih (tpre ++ (tkq ++ [(Token.colon, p3), (Token.digit m.2, p4)]))
        [(Token.rightCurly, pr)] (f2 + 1) (objs ++ [memberValue m]) (by simp)
        (by simp [objTail]) (by simp at hfuel ⊢; omega)
      have heq1 : tpre ++ (tkq ++ [(Token.colon, p3), (Token.digit m.2, p4)]) ++
          [(Token.rightCurly, pr)] = tpre ++ tbody := by
        rw [hbody, hre]; simp
      have heq2 : (tpre ++ (tkq ++ [(Token.colon, p3), (Token.digit m.2, p4)])).length =
          tpre.length + m.1.length + 4 := by
        simp [hkqlen]; omega
      rw [heq1, heq2] at hrec
      simp only [hlast, Bool.not_true, Bool.false_eq_true, if_false, hrec]
      simp
    | cons m2 ms2 =>
      simp only at hrest0
      obtain ⟨pr, trest1, hre, htr1⟩ := map_fst_cons_split hrest0
      have htr1_ne : trest1 ≠ [] := by
        intro he
        rw [he] at htr1
        exact objTail_ne_nil _ htr1.symm
      have hlen2 : tpre.length + m.1.length + 4 + 2 ≤ (tpre ++ tbody).length := by
        rcases trest1 with _ | ⟨u, us⟩
        · exact absurd rfl htr1_ne
        · rw [hbody, hre]
          simp [hkqlen]
          omega
      have hlast : lastToken (tpre ++ tbody) (tpre.length + m.1.length + 4) = false :=
        lastToken_false hlen2
      have hnext : nextToken (tpre ++ tbody) (tpre.length + m.1.length + 4) =
          .ok (tpre.length + m.1.length + 4 + 1) := nextToken_at (by omega)
      have hrec := ih (tpre ++ (tkq ++ [(Token.colon, p3), (Token.digit m.2, p4)]) ++
        [(Token.comma, pr)]) trest1 (f2 + 1) (objs ++ [memberValue m])
        (fun x hx => hdig x (by simp [hx])) htr1 (by simp at hfuel ⊢; omega)
      have heq1 : tpre ++ (tkq ++ [(Token.colon, p3), (Token.digit m.2, p4)]) ++
          [(Token.comma, pr)] ++ trest1 = tpre ++ tbody := by
        rw [hbody, hre]; simp
      have heq2 : (tpre ++ (tkq ++ [(Token.colon, p3), (Token.digit m.2, p4)]) ++
          [(Token.comma, pr)]).length = tpre.length + m.1.length + 4 + 1 := by
        simp [hkqlen]; omega
      rw [heq1, heq2] at hrec
      simp only [hlast, Bool.not_false, if_true, hnext, hrec]
      simp



/-- One-step unfolding of `parse_object` at positive fuel. -/
theorem parseObject_succ (tks : List TP) (fuel idx : Nat) :
    parseObject tks (fuel + 1) idx =
      match assertCurrent tks idx [Token.leftCurly] with
      | .error e => .error e
      | .ok _ =>
      match nextToken tks idx with
      | .error e => .error e
      | .ok idx =>
      match assertCurrent tks idx [Token.rightCurly] with
      | .ok _ =>
        (match nextToken tks idx with
         | .error e => .error e
         | .ok idx => .ok (JsonValue.empty, idx))
      | .error .panicked => .error .panicked
      | .error .fuelOut => .error .fuelOut
      | .error (.syn _) =>
        match parseObjectLoop tks fuel idx [] with
        | .error e => .error e
        | .ok (objs, idx) =>
          .ok (if objs.isEmpty then JsonValue.empty else JsonValue.object objs, idx) := rfl

theorem parseObject_digit (ms : List (List Char × Char)) (hne : ms ≠ [])
    (hdig : ∀ m ∈ ms, m.2.isDigit) {tks ttail : List TP} {p0 : Position} {fuel : Nat}
    (hsplit : tks = (Token.leftCurly, p0) :: ttail)
    (hpat : ttail.map Prod.fst = objTail ms)
    (hfuel : ms.length + 3 ≤ fuel) :
    parseObject tks fuel 0 = .ok (.object (ms.map memberValue), tks.length - 1) := by
  obtain ⟨f, rfl⟩ : ∃ f, fuel = f + 1 := ⟨fuel - 1, by omega⟩
  subst hsplit
  have hc0 : currentToken ((Token.leftCurly, p0) :: ttail) 0 = .ok (Token.leftCurly, p0) :=
    currentToken_at [] _ _
  have hpass0 : assertCurrent ((Token.leftCurly, p0) :: ttail) 0 [Token.leftCurly] = .ok () :=
    assertCurrent_pass hc0 (by rfl)
  have hnext0 : nextToken ((Token.leftCurly, p0) :: ttail) 0 = .ok 1 := nextToken_at (by simp)
  rcases ms with _ | ⟨m, ms'⟩
  · exact absurd rfl hne
  have hpat' := hpat
  rw [objTail_cons] at hpat'
  obtain ⟨tmem, trest0, htb, hmem, _⟩ := map_fst_append_split hpat'
  obtain ⟨tkq, tcd, htm, hkq, _⟩ := map_fst_append_split hmem
  obtain ⟨pq, tkq2, hkqeq, _⟩ := map_fst_cons_split hkq
  have hc1 : currentToken ((Token.leftCurly, p0) :: ttail) 1 = .ok (Token.quote, pq) := by
    have hshape : (Token.leftCurly, p0) :: ttail =
        [(Token.leftCurly, p0)] ++ (Token.quote, pq) :: (tkq2 ++ tcd ++ trest0) := by
      rw [htb, htm, hkqeq]; simp
    rw [hshape]
    exact currentToken_at [(Token.leftCurly, p0)] _ _
  obtain ⟨me, hsyn1⟩ := assertCurrent_syn [Token.rightCurly] hc1 (by rfl) (by rfl) (by rfl)
  have hloop := parseObjectLoop_digit (m :: ms') [(Token.leftCurly, p0)] ttail f []
    hdig hpat (by simp at hfuel ⊢; omega)
  have heq : ([(Token.leftCurly, p0)] : List TP) ++ ttail = (Token.leftCurly, p0) :: ttail := by
    simp
  rw [heq] at hloop
  rw [parseObject_succ]
  simp only [hpass0, hnext0, hsyn1]
  have hone : ([(Token.leftCurly, p0)] : List TP).length = 1 := rfl
  rw [hone] at hloop
  simp only [hloop, List.nil_append]
  have hnemp : ((m :: ms').map memberValue).isEmpty = false := by simp
  rw [hnemp]
  simp



theorem tokenizeAux_cons (b : Bool) (pos : Position) (c : Char) (cs : List Char) :
    tokenizeAux b pos (c :: cs) =
      ((classify b c).1, posStep pos c) :: tokenizeAux (classify b c).2 (posStep pos c) cs := rfl

theorem removeWhitespace_cons_keep {t : Token} (p : Position) (l : List TP)
    (h1 : t ≠ Token.whitespace) (h2 : t ≠ Token.newLine) :
    removeWhitespace ((t, p) :: l) = (t, p) :: removeWhitespace l := by
  simp only [removeWhitespace, List.filter_cons]
  rw [if_pos]
  simp [h1, h2]

theorem removeWhitespace_cons_ws (p : Position) (l : List TP) :
    removeWhitespace ((Token.whitespace, p) :: l) = removeWhitespace l := by
  simp [removeWhitespace, List.filter_cons]

theorem removeWhitespace_cons_nl (p : Position) (l : List TP) :
    removeWhitespace ((Token.newLine, p) :: l) = removeWhitespace l := by
  simp [removeWhitespace, List.filter_cons]

theorem flagAfter_cons (b : Bool) (c : Char) (cs : List Char) :
    flagAfter b (c :: cs) = flagAfter (classify b c).2 cs := rfl

theorem flagAfter_append (b : Bool) (xs ys : List Char) :
    flagAfter b (xs ++ ys) = flagAfter (flagAfter b xs) ys := by
  simp [flagAfter, List.foldl_append]

theorem flagAfter_renderMember (m : List Char × Char) (hok : memberOk m) :
    flagAfter false (renderMember m) = false := by
  obtain ⟨hkey, hdig⟩ := hok
  have hr : renderMember m = '"' :: (m.1 ++ ['"', ':', ' ', m.2]) := by simp [renderMember]
  rw [hr, flagAfter_cons]
  have h1 : (classify false '"').2 = true := rfl
  rw [h1, flagAfter_append, flagAfter_chars m.1 hkey]
  rw [flagAfter_cons]
  have h2 : (classify true '"').2 = false := rfl
  rw [h2, flagAfter_cons]
  have h3 : (classify false ':').2 = false := rfl
  rw [h3, flagAfter_cons]
  have h4 : (classify false ' ').2 = false := rfl
  rw [h4, flagAfter_cons, classify_digit hdig]
  rfl

theorem renderMember_segment (m : List Char × Char) (hok : memberOk m) (pos : Position) :
    (removeWhitespace (tokenizeAux false pos (renderMember m))).map Prod.fst =
      Token.quote :: m.1.map Token.char ++ [Token.quote, Token.colon, Token.digit m.2] := by
  obtain ⟨hkey, hdig⟩ := hok
  have hr : renderMember m = '"' :: (m.1 ++ ('"' :: ':' :: ' ' :: m.2 :: [])) := by
    simp [renderMember]
  rw [hr, tokenizeAux_cons]
  have hq : classify false '"' = (Token.quote, true) := rfl
  rw [hq, tokenizeAux_append, flagAfter_chars m.1 hkey, tokenizeAux_cons]
  have hq2 : classify true '"' = (Token.quote, false) := rfl
  rw [hq2, tokenizeAux_cons]
  have hcolon : classify false ':' = (Token.colon, false) := rfl
  rw [hcolon, tokenizeAux_cons]
  have hws : classify false ' ' = (Token.whitespace, false) := rfl
  rw [hws, tokenizeAux_cons, classify_digit hdig]
  dsimp only
  rw [removeWhitespace_cons_keep _ _ (by simp) (by simp)]
  rw [removeWhitespace_append]
  rw [removeWhitespace_chars (tokenizeAux_chars m.1 _ hkey)]
  rw [removeWhitespace_cons_keep _ _ (by simp) (by simp)]
  rw [removeWhitespace_cons_keep _ _ (by simp) (by simp)]
  rw [removeWhitespace_cons_ws]
  rw [removeWhitespace_cons_keep _ _ (by simp) (by simp)]
  have hnil : tokenizeAux false
      (posStep (posStep (posStep (posStep (posAfter (posStep pos '"') m.1) '"') ':') ' ') m.2)
      [] = [] := rfl
  rw [hnil]
  simp only [removeWhitespace, List.filter_nil, List.map_cons, List.map_append,
    tokenizeAux_chars m.1 _ hkey]
  simp

theorem renderMember_tokens (m : List Char × Char) (hok : memberOk m) (pos : Position)
    (rest : List Char) :
    (removeWhitespace (tokenizeAux false pos (renderMember m ++ rest))).map Prod.fst =
      (Token.quote :: m.1.map Token.char ++ [Token.quote, Token.colon, Token.digit m.2]) ++
        (removeWhitespace (tokenizeAux false (posAfter pos (renderMember m)) rest)).map
          Prod.fst := by
  rw [tokenizeAux_append, flagAfter_renderMember m hok, removeWhitespace_append]
  simp only [List.map_append, renderMember_segment m hok pos]

theorem renderMembers_tokens (ms : List (List Char × Char)) : (∀ m ∈ ms, memberOk m) →
    ms ≠ [] → ∀ pos : Position,
    (removeWhitespace (tokenizeAux false pos (renderMembers ms ++ ['}']))).map Prod.fst =
      objTail ms := by
  induction ms with
  | nil => intro _ h; exact absurd rfl h
  | cons m ms ih =>
    intro hok _ pos
    cases ms with
    | nil =>
      have hr : renderMembers [m] ++ ['}'] = renderMember m ++ ['}'] := rfl
      rw [hr]
      rw [renderMember_tokens m (hok m (by simp)) pos ['}']]
      rw [tokenizeAux_cons]
      have hrc : classify false '}' = (Token.rightCurly, false) := rfl
      rw [hrc]
      dsimp only
      have hnil : tokenizeAux false (posStep (posAfter pos (renderMember m)) '}') [] = [] := rfl
      rw [hnil]
      rw [removeWhitespace_cons_keep _ _ (by simp) (by simp)]
      simp [objTail, memPat, removeWhitespace]
    | cons m2 ms2 =>
      have hr : renderMembers (m :: m2 :: ms2) ++ ['}'] =
          renderMember m ++ (',' :: ' ' :: (renderMembers (m2 :: ms2) ++ ['}'])) := by
        simp [renderMembers]
      rw [hr]
      rw [renderMember_tokens m (hok m (by simp)) pos
        (',' :: ' ' :: (renderMembers (m2 :: ms2) ++ ['}']))]
      rw [tokenizeAux_cons]
      have hcm : classify false ',' = (Token.comma, false) := rfl
      rw [hcm]
      rw [tokenizeAux_cons]
      have hws : classify false ' ' = (Token.whitespace, false) := rfl
      rw [hws]
      dsimp only
      rw [removeWhitespace_cons_keep _ _ (by simp) (by simp)]
      rw [removeWhitespace_cons_ws]
      simp only [List.map_cons]
      rw [ih (fun x hx => hok x (by simp [hx])) (by simp) _]
      rw [objTail_cons m (m2 :: ms2)]
      simp

theorem objTail_length (ms : List (List Char × Char)) : ms.length ≤ (objTail ms).length := by
  induction ms with
  | nil => simp [objTail]
  | cons m ms ih =>
    rw [objTail_cons]
    cases ms with
    | nil => simp_all
    | cons m2 ms2 =>
      simp_all
      omega



theorem claim_C4_draft (ms : List (List Char × Char)) (hne : ms ≠ [])
    (hok : ∀ m ∈ ms, memberOk m) :
    parseDoc ⟨renderObject ms⟩ = .ok (.object (ms.map memberValue)) := by
  have hdata : (String.mk (renderObject ms)).data = renderObject ms := rfl
  rw [parseDoc, tokenize, hdata]
  dsimp only
  rw [renderObject, tokenizeAux_cons]
  have hlc : classify false '{' = (Token.leftCurly, false) := rfl
  rw [hlc]
  dsimp only
  rw [Parser.parse]
  dsimp only [Parser.new]
  rw [removeWhitespace_cons_keep _ _ (by simp) (by simp)]
  have hbody := renderMembers_tokens ms hok hne (posStep ⟨1, 0⟩ '{')
  have hc0 : currentToken ((Token.leftCurly, posStep ⟨1, 0⟩ '{') ::
      removeWhitespace (tokenizeAux false (posStep ⟨1, 0⟩ '{') (renderMembers ms ++ ['}']))) 0 =
      .ok (Token.leftCurly, posStep ⟨1, 0⟩ '{') := currentToken_at [] _ _
  rw [hc0]
  dsimp only
  have hlen : ms.length + 3 ≤ fuelFor ((Token.leftCurly, posStep ⟨1, 0⟩ '{') ::
      removeWhitespace (tokenizeAux false (posStep ⟨1, 0⟩ '{') (renderMembers ms ++ ['}']))) := by
    have h1 : (removeWhitespace (tokenizeAux false (posStep ⟨1, 0⟩ '{')
        (renderMembers ms ++ ['}']))).length = (objTail ms).length := by
      rw [← hbody]
      simp
    have h2 := objTail_length ms
    simp only [fuelFor, List.length_cons]
    omega
  obtain ⟨f, hf⟩ : ∃ f, fuelFor ((Token.leftCurly, posStep ⟨1, 0⟩ '{') ::
      removeWhitespace (tokenizeAux false (posStep ⟨1, 0⟩ '{') (renderMembers ms ++ ['}']))) =
      f := ⟨_, rfl⟩
  rw [hf] at hlen ⊢
  rw [parseObject_digit ms hne (fun m hm => (hok m hm).2) rfl hbody hlen]
  rfl



theorem parseKeyedObject_str {tks tpre tkey tval trest : List TP} {ks vs : List Char}
    {p3 : Position} {fuel : Nat}
    (hsplit : tks = tpre ++ (tkey ++ (Token.colon, p3) :: tval) ++ trest)
    (hkey : tkey.map Prod.fst = Token.quote :: ks.map Token.char ++ [Token.quote])
    (hval : tval.map Prod.fst = Token.quote :: vs.map Token.char ++ [Token.quote])
    (hrest : trest ≠ []) :
    parseKeyedObject tks (fuel + 1) tpre.length =
      .ok (.keyedObject ⟨ks⟩ (.str ⟨vs⟩), tpre.length + ks.length + vs.length + 5) := by
  have hklen : tkey.length = ks.length + 2 := by
    have := congrArg List.length hkey; simpa using this
  have hvne : tval ≠ [] := by
    intro he
    rw [he] at hval
    simp at hval
  have hkeyres : parseKey tks tpre.length = .ok (⟨ks⟩, tpre.length + ks.length + 2) :=
    @parseKey_trace tks tpre tkey ((Token.colon, p3) :: tval ++ trest) ks
      (by rw [hsplit]; simp) hkey (by simp)
  have hccolon : currentToken tks (tpre.length + ks.length + 2) = .ok (Token.colon, p3) := by
    have hshape : tks = (tpre ++ tkey) ++ (Token.colon, p3) :: (tval ++ trest) := by
      rw [hsplit]; simp
    have hl : (tpre ++ tkey).length = tpre.length + ks.length + 2 := by
      simp [hklen]; omega
    rw [hshape, ← hl]
    exact currentToken_at _ _ _
  have hpassc : assertCurrent tks (tpre.length + ks.length + 2) [Token.colon] = .ok () :=
    assertCurrent_pass hccolon (by rfl)
  have hltc : tpre.length + ks.length + 2 < tks.length := by
    rcases tval with _ | ⟨v, vrest⟩
    · exact absurd rfl hvne
    · rw [hsplit]; simp [hklen]; omega
  obtain ⟨pv, tval2, hveq, hval2⟩ := map_fst_cons_split hval
  have hcq : currentToken tks (tpre.length + ks.length + 3) = .ok (Token.quote, pv) := by
    have hshape : tks = (tpre ++ tkey ++ [(Token.colon, p3)]) ++ (Token.quote, pv) ::
        (tval2 ++ trest) := by
      rw [hsplit, hveq]; simp
    have hl : (tpre ++ tkey ++ [(Token.colon, p3)]).length = tpre.length + ks.length + 3 := by
      simp [hklen]; omega
    rw [hshape, ← hl]
    exact currentToken_at _ _ _
  have hstr : parseStringLiteral tks (tpre.length + ks.length + 3) =
      .ok (JsonValue.str ⟨vs⟩, tpre.length + ks.length + 3 + vs.length + 2) := by
    have hshape : tks = (tpre ++ tkey ++ [(Token.colon, p3)]) ++ tval ++ trest := by
      rw [hsplit]; simp
    have hl : (tpre ++ tkey ++ [(Token.colon, p3)]).length = tpre.length + ks.length + 3 := by
      simp [hklen]; omega
    have htr := @parseStringLiteral_trace tks (tpre ++ tkey ++ [(Token.colon, p3)]) tval trest vs
      hshape hval hrest
    rw [hl] at htr
    rw [htr]
  simp only [parseKeyedObject, parseFns, hkeyres, hpassc, nextToken_at hltc, hcq, hstr]
  have : tpre.length + ks.length + 3 + vs.length + 2 = tpre.length + ks.length + vs.length + 5 := by
    omega
  rw [this]



theorem parseObjectLoop_single_str {tks tpre tkey tval : List TP} {ks vs : List Char}
    {p3 pr : Position} {fuel : Nat} {objs : List JsonValue}
    (hsplit : tks = tpre ++ (tkey ++ (Token.colon, p3) :: tval) ++ [(Token.rightCurly, pr)])
    (hkey : tkey.map Prod.fst = Token.quote :: ks.map Token.char ++ [Token.quote])
    (hval : tval.map Prod.fst = Token.quote :: vs.map Token.char ++ [Token.quote])
    (hfuel : 3 ≤ fuel) :
    parseObjectLoop tks fuel tpre.length objs =
      .ok (objs ++ [.keyedObject ⟨ks⟩ (.str ⟨vs⟩)], tks.length - 1) := by
  obtain ⟨f, rfl⟩ : ∃ f, fuel = f + 1 := ⟨fuel - 1, by omega⟩
  obtain ⟨f2, rfl⟩ : ∃ f2, f = f2 + 1 := ⟨f - 1, by omega⟩
  have hklen : tkey.length = ks.length + 2 := by
    have := congrArg List.length hkey; simpa using this
  have hvlen : tval.length = vs.length + 2 := by
    have := congrArg List.length hval; simpa using this
  obtain ⟨pq, tkey2, hkeq, hkey2⟩ := map_fst_cons_split hkey
  have hc : currentToken tks tpre.length = .ok (Token.quote, pq) := by
    have hshape : tks = tpre ++ (Token.quote, pq) ::
        (tkey2 ++ (Token.colon, p3) :: tval ++ [(Token.rightCurly, pr)]) := by
      rw [hsplit, hkeq]; simp
    rw [hshape]
    exact currentToken_at tpre _ _
  obtain ⟨me, hsyn⟩ := assertCurrent_syn [Token.rightCurly, Token.rightBracket] hc
    (by rfl) (by rfl) (by rfl)
  have hpass : assertCurrent tks tpre.length [Token.quote, Token.comma] = .ok () :=
    assertCurrent_pass hc (by rfl)
  have hkeyed : parseKeyedObject tks (f2 + 1) tpre.length =
      .ok (.keyedObject ⟨ks⟩ (.str ⟨vs⟩), tpre.length + ks.length + vs.length + 5) :=
    @parseKeyedObject_str tks tpre tkey tval [(Token.rightCurly, pr)] ks vs p3 f2
      hsplit hkey hval (by simp)
  have hlen : tks.length = tpre.length + ks.length + vs.length + 5 + 1 := by
    rw [hsplit]
    simp [hklen, hvlen]
    omega
  have hlast : lastToken tks (tpre.length + ks.length + vs.length + 5) = true :=
    lastToken_true hlen
  have hrec := parseObjectLoop_digit [] (tpre ++ (tkey ++ (Token.colon, p3) :: tval))
    [(Token.rightCurly, pr)] (f2 + 1) (objs ++ [.keyedObject ⟨ks⟩ (.str ⟨vs⟩)]) (by simp)
    (by simp [objTail]) (by simp only [List.length_nil]; omega)
  have heq1 : tpre ++ (tkey ++ (Token.colon, p3) :: tval) ++ [(Token.rightCurly, pr)] = tks := by
    rw [hsplit]
  have heq2 : (tpre ++ (tkey ++ (Token.colon, p3) :: tval)).length =
      tpre.length + ks.length + vs.length + 5 := by
    simp [hklen, hvlen]
    omega
  rw [heq1, heq2] at hrec
  rw [parseObjectLoop_succ]
  simp only [hsyn, hpass, hc, hkeyed, hlast, Bool.not_true, Bool.false_eq_true, if_false, hrec]
  simp

theorem parseObject_single_str {tks tkey tval : List TP} {ks vs : List Char}
    {p0 p3 pr : Position} {fuel : Nat}
    (hsplit : tks = (Token.leftCurly, p0) :: (tkey ++ (Token.colon, p3) :: tval ++
      [(Token.rightCurly, pr)]))
    (hkey : tkey.map Prod.fst = Token.quote :: ks.map Token.char ++ [Token.quote])
    (hval : tval.map Prod.fst = Token.quote :: vs.map Token.char ++ [Token.quote])
    (hfuel : 4 ≤ fuel) :
    parseObject tks fuel 0 = .ok (.object [.keyedObject ⟨ks⟩ (.str ⟨vs⟩)], tks.length - 1) := by
  obtain ⟨f, rfl⟩ : ∃ f, fuel = f + 1 := ⟨fuel - 1, by omega⟩
  subst hsplit
  have hc0 : currentToken ((Token.leftCurly, p0) :: (tkey ++ (Token.colon, p3) :: tval ++
      [(Token.rightCurly, pr)])) 0 = .ok (Token.leftCurly, p0) := currentToken_at [] _ _
  have hpass0 : assertCurrent ((Token.leftCurly, p0) :: (tkey ++ (Token.colon, p3) :: tval ++
      [(Token.rightCurly, pr)])) 0 [Token.leftCurly] = .ok () := assertCurrent_pass hc0 (by rfl)
  have hnext0 : nextToken ((Token.leftCurly, p0) :: (tkey ++ (Token.colon, p3) :: tval ++
      [(Token.rightCurly, pr)])) 0 = .ok 1 := nextToken_at (by simp)
  obtain ⟨pq, tkey2, hkeq, hkey2⟩ := map_fst_cons_split hkey
  have hc1 : currentToken ((Token.leftCurly, p0) :: (tkey ++ (Token.colon, p3) :: tval ++
      [(Token.rightCurly, pr)])) 1 = .ok (Token.quote, pq) := by
    have hshape : (Token.leftCurly, p0) :: (tkey ++ (Token.colon, p3) :: tval ++
        [(Token.rightCurly, pr)]) = [(Token.leftCurly, p0)] ++ (Token.quote, pq) ::
          (tkey2 ++ (Token.colon, p3) :: tval ++ [(Token.rightCurly, pr)]) := by
      rw [hkeq]; simp
    rw [hshape]
    exact currentToken_at [(Token.leftCurly, p0)] _ _
  obtain ⟨me, hsyn1⟩ := assertCurrent_syn [Token.rightCurly] hc1 (by rfl) (by rfl) (by rfl)
  have hloop := @parseObjectLoop_single_str ((Token.leftCurly, p0) :: (tkey ++ (Token.colon, p3) ::
      tval ++ [(Token.rightCurly, pr)])) [(Token.leftCurly, p0)] tkey tval ks vs p3 pr f []
    (by simp) hkey hval (by omega)
  have hone : ([(Token.leftCurly, p0)] : List TP).length = 1 := rfl
  rw [hone] at hloop
  rw [parseObject_succ]
  simp only [hpass0, hnext0, hsyn1, hloop]
  simp





/-- A quoted key segment: `"<k>"`. -/
def renderKeyQ (k : List Char) : List Char := '"' :: (k ++ ['"'])

/-- A quoted string-literal segment whose body carries an embedded
newline: `"<a>\n<b>"`. -/
def renderValNl (a b : List Char) : List Char := '"' :: ((a ++ '\n' :: b) ++ ['"'])

/-- The document `{"<k>": "<a>\n<b>"}`. -/
def renderStrDoc (k a b : List Char) : List Char :=
  '{' :: (renderKeyQ k ++ (':' :: ' ' :: (renderValNl a b ++ ['}'])))

theorem removeWhitespace_of_fst {tps : List TP} {pat : List Token}
    (h : tps.map Prod.fst = pat)
    (hp : ∀ t ∈ pat, t ≠ Token.whitespace ∧ t ≠ Token.newLine) :
    removeWhitespace tps = tps := by
  apply removeWhitespace_keep
  intro tp htp
  exact hp tp.1 (h ▸ List.mem_map_of_mem Prod.fst htp)

theorem renderKeyQ_flag {k : List Char} (hk : ∀ c ∈ k, strOkChar c) :
    flagAfter false (renderKeyQ k) = false := by
  rw [renderKeyQ, flagAfter_cons]
  have h1 : (classify false '"').2 = true := rfl
  rw [h1, flagAfter_append, flagAfter_chars k hk, flagAfter_cons]
  rfl

theorem renderKeyQ_fst {k : List Char} (hk : ∀ c ∈ k, strOkChar c) (pos : Position) :
    (tokenizeAux false pos (renderKeyQ k)).map Prod.fst =
      Token.quote :: k.map Token.char ++ [Token.quote] := by
  rw [renderKeyQ, tokenizeAux_cons]
  have h1 : classify false '"' = (Token.quote, true) := rfl
  rw [h1]
  dsimp only
  rw [tokenizeAux_append k, flagAfter_chars k hk]
  have h2 : ∀ p : Position, tokenizeAux true p ['"'] = [(Token.quote, posStep p '"')] := fun _ => rfl
  rw [h2]
  simp [tokenizeAux_chars k _ hk]

theorem renderKeyQ_keep {k : List Char} (hk : ∀ c ∈ k, strOkChar c) (pos : Position) :
    removeWhitespace (tokenizeAux false pos (renderKeyQ k)) =
      tokenizeAux false pos (renderKeyQ k) := by
  apply removeWhitespace_of_fst (renderKeyQ_fst hk pos)
  intro t ht
  rcases List.mem_cons.mp ht with rfl | h2
  · exact ⟨by simp, by simp⟩
  rcases List.mem_append.mp h2 with h3 | h3
  · obtain ⟨c, _, rfl⟩ := List.mem_map.mp h3
    exact ⟨by simp, by simp⟩
  · rcases List.mem_singleton.mp h3 with rfl
    exact ⟨by simp, by simp⟩

theorem renderValNl_flag {a b : List Char} (ha : ∀ c ∈ a, strOkChar c)
    (hb : ∀ c ∈ b, strOkChar c) : flagAfter false (renderValNl a b) = false := by
  rw [renderValNl, flagAfter_cons]
  have h1 : (classify false '"').2 = true := rfl
  rw [h1, flagAfter_append, flagAfter_append, flagAfter_chars a ha, flagAfter_cons true '\n' b]
  have h2 : (classify true '\n').2 = true := rfl
  rw [h2, flagAfter_chars b hb, flagAfter_cons]
  rfl

theorem renderValNl_fst {a b : List Char} (ha : ∀ c ∈ a, strOkChar c)
    (hb : ∀ c ∈ b, strOkChar c) (pos : Position) :
    (removeWhitespace (tokenizeAux false pos (renderValNl a b))).map Prod.fst =
      Token.quote :: (a ++ b).map Token.char ++ [Token.quote] := by
  rw [renderValNl, tokenizeAux_cons]
  have h1 : classify false '"' = (Token.quote, true) := rfl
  rw [h1]
  dsimp only
  rw [tokenizeAux_append, tokenizeAux_append a, flagAfter_chars a ha, tokenizeAux_cons]
  have h2 : classify true '\n' = (Token.newLine, true) := rfl
  rw [h2]
  dsimp only
  rw [flagAfter_append, flagAfter_chars a ha, flagAfter_cons true '\n' b]
  have h2b : (classify true '\n').2 = true := rfl
  rw [h2b, flagAfter_chars b hb]
  have h3 : ∀ p : Position, tokenizeAux true p ['"'] = [(Token.quote, posStep p '"')] := fun _ => rfl
  rw [h3]
  rw [removeWhitespace_cons_keep _ _ (by simp) (by simp)]
  rw [removeWhitespace_append]
  rw [removeWhitespace_append]
  rw [removeWhitespace_chars (tokenizeAux_chars a _ ha)]
  rw [removeWhitespace_cons_nl]
  rw [removeWhitespace_chars (tokenizeAux_chars b _ hb)]
  have h4 : removeWhitespace [(Token.quote, posStep (posAfter (posStep pos '"')
      (a ++ '\n' :: b)) '"')] = [(Token.quote, posStep (posAfter (posStep pos '"')
      (a ++ '\n' :: b)) '"')] := removeWhitespace_keep (by simp)
  rw [h4]
  simp [tokenizeAux_chars a _ ha, tokenizeAux_chars b _ hb]



theorem claim_C2_main (k a b : List Char)
    (hk : ∀ c ∈ k, strOkChar c) (ha : ∀ c ∈ a, strOkChar c) (hb : ∀ c ∈ b, strOkChar c) :
    parseDoc ⟨renderStrDoc k a b⟩ = .ok (.object [.keyedObject ⟨k⟩ (.str ⟨a ++ b⟩)]) := by
  have hL : removeWhitespace (tokenizeAux false ⟨1, 0⟩ (renderStrDoc k a b)) =
      (Token.leftCurly, posStep ⟨1, 0⟩ '{') ::
        ((tokenizeAux false (posStep ⟨1, 0⟩ '{') (renderKeyQ k) ++
          (Token.colon, posStep (posAfter (posStep ⟨1, 0⟩ '{') (renderKeyQ k)) ':') ::
            removeWhitespace (tokenizeAux false (posStep (posStep (posAfter (posStep ⟨1, 0⟩ '{')
              (renderKeyQ k)) ':') ' ') (renderValNl a b))) ++
          [(Token.rightCurly, posStep (posAfter (posStep (posStep (posAfter (posStep ⟨1, 0⟩ '{')
            (renderKeyQ k)) ':') ' ') (renderValNl a b)) '}')]) := by
    rw [renderStrDoc, tokenizeAux_cons]
    have h1 : classify false '{' = (Token.leftCurly, false) := rfl
    rw [h1]
    dsimp only
    rw [tokenizeAux_append (renderKeyQ k), renderKeyQ_flag hk, tokenizeAux_cons]
    have h2 : classify false ':' = (Token.colon, false) := rfl
    rw [h2, tokenizeAux_cons]
    have h3 : classify false ' ' = (Token.whitespace, false) := rfl
    rw [h3]
    dsimp only
    rw [tokenizeAux_append (renderValNl a b), renderValNl_flag ha hb]
    have h4 : ∀ p : Position, tokenizeAux false p ['}'] = [(Token.rightCurly, posStep p '}')] :=
      fun _ => rfl
    rw [h4]
    rw [removeWhitespace_cons_keep _ _ (by simp) (by simp)]
    rw [removeWhitespace_append]
    rw [renderKeyQ_keep hk]
    rw [removeWhitespace_cons_keep _ _ (by simp) (by simp)]
    rw [removeWhitespace_cons_ws]
    rw [removeWhitespace_append]
    have h5 : removeWhitespace [(Token.rightCurly, posStep (posAfter (posStep (posStep (posAfter
        (posStep ⟨1, 0⟩ '{') (renderKeyQ k)) ':') ' ') (renderValNl a b)) '}')] =
        [(Token.rightCurly, posStep (posAfter (posStep (posStep (posAfter (posStep ⟨1, 0⟩ '{')
        (renderKeyQ k)) ':') ' ') (renderValNl a b)) '}')] := removeWhitespace_keep (by simp)
    rw [h5]
    simp
  have hdata : (String.mk (renderStrDoc k a b)).data = renderStrDoc k a b := rfl
  rw [parseDoc, tokenize, hdata]
  dsimp only
  rw [Parser.parse]
  dsimp only [Parser.new]
  rw [hL]
  have hc0 : currentToken ((Token.leftCurly, posStep ⟨1, 0⟩ '{') ::
      ((tokenizeAux false (posStep ⟨1, 0⟩ '{') (renderKeyQ k) ++
        (Token.colon, posStep (posAfter (posStep ⟨1, 0⟩ '{') (renderKeyQ k)) ':') ::
          removeWhitespace (tokenizeAux false (posStep (posStep (posAfter (posStep ⟨1, 0⟩ '{')
            (renderKeyQ k)) ':') ' ') (renderValNl a b))) ++
        [(Token.rightCurly, posStep (posAfter (posStep (posStep (posAfter (posStep ⟨1, 0⟩ '{')
          (renderKeyQ k)) ':') ' ') (renderValNl a b)) '}')])) 0 =
      .ok (Token.leftCurly, posStep ⟨1, 0⟩ '{') := currentToken_at [] _ _
  rw [hc0]
  dsimp only
  rw [parseObject_single_str rfl (renderKeyQ_fst hk _) (renderValNl_fst ha hb _)
    (by simp only [fuelFor]; omega)]
  rfl


/-- One-step unfolding of `parse_array` at positive fuel. -/
theorem parseArray_succ (tks : List TP) (fuel idx : Nat) :
    parseArray tks (fuel + 1) idx =
      match parseArrayLoop tks fuel idx [] with
      | .error e => .error e
      | .ok (arr, idx) =>
        match nextToken tks idx with
        | .error e => .error e
        | .ok idx => .ok (JsonValue.arr arr, idx) := rfl

/-- One-step unfolding of the array element loop at positive fuel. -/
theorem parseArrayLoop_succ (tks : List TP) (fuel idx : Nat) (arr : List JsonValue) :
    parseArrayLoop tks (fuel + 1) idx arr =
      match currentToken tks idx with
      | .error e => .error e
      | .ok (t, _) =>
        if t == Token.rightBracket then .ok (arr, idx)
        else
          match nextToken tks idx with
          | .error e => .error e
          | .ok idx =>
          match currentToken tks idx with
          | .error e => .error e
          | .ok (next, _) =>
            match next with
            | Token.rightBracket => .ok (arr, idx)
            | _ =>
              match (match next with
                     | Token.leftCurly => parseObject tks fuel idx
                     | Token.quote => parseStringLiteral tks idx
                     | Token.char 't' => parseBool tks idx
                     | Token.char 'f' => parseBool tks idx
                     | Token.digit _ => parseNumber tks idx
                     | Token.minus => parseNumber tks idx
                     | Token.leftBracket => parseArray tks fuel idx
                     | _ => .error (errAt tks idx "unexpected token while parsing array")) with
              | .error e => .error e
              | .ok (v, idx) => parseArrayLoop tks fuel idx (arr ++ [v]) := rfl

theorem posStep_ne_newline {c : Char} (pos : Position) (h : c ≠ '\n') :
    posStep pos c = ⟨pos.line, pos.col + 1⟩ := by
  rw [posStep]
  simp [h, nextCharPos]

theorem posAfter_no_newline (cs : List Char) : ∀ (pos : Position), (∀ c ∈ cs, c ≠ '\n') →
    posAfter pos cs = ⟨pos.line, pos.col + cs.length⟩ := by
  induction cs with
  | nil => intro pos _; simp [posAfter]
  | cons c cs ih =>
    intro pos h
    have hc := h c (by simp)
    have : posAfter pos (c :: cs) = posAfter (posStep pos c) cs := rfl
    rw [this, ih _ (fun x hx => h x (by simp [hx])), posStep_ne_newline pos hc]
    simp
    omega

theorem numRun_ne_newline {c : Char} (h : c.isDigit ∨ c = '-' ∨ c = '.') : c ≠ '\n' := by
  rcases h with h | rfl | rfl
  · exact char_ne_of_isDigit h (by decide)
  · decide
  · decide



theorem errAt_position {tks : List TP} {idx : Nat} {tp : TP} (h : tks.get? idx = some tp)
    (msg : String) : errAt tks idx msg = .syn ("Syntax error: " ++ msg ++ " at line " ++
      toString tp.2.line ++ " column " ++ toString tp.2.col) := by
  rw [errAt, h]
  unfold Position.display
  congr 1
  simp only [String.append_assoc]
  have hx : ∀ R : String, " at " ++ ("line " ++ R) = " at line " ++ R := by
    intro R
    rw [← String.append_assoc, show (" at " : String) ++ "line " = " at line " from rfl]
  rw [hx]

theorem parseArray_single_number {tks tnum : List TP} {c : Char} {s1 : List Char}
    {p1 pc pr : Position} {f2 : Nat}
    (hsplit : tks = (Token.leftBracket, p1) :: ((numTok c, pc) :: tnum ++
      [(Token.rightBracket, pr)]))
    (hpat : ((numTok c, pc) :: tnum).map Prod.fst = (c :: s1).map numTok)
    (hall : ∀ x ∈ c :: s1, x.isDigit ∨ x = '-' ∨ x = '.')
    (hhead : c.isDigit ∨ c = '-')
    (hf2 : 1 ≤ f2) :
    parseArray tks (f2 + 2) 0 =
      if (c :: s1).contains '.' then
        match rustParseF64 ⟨c :: s1⟩ with
        | some q => .ok (JsonValue.arr [.float q], s1.length + 3)
        | none => .error (errAt tks (s1.length + 2) "failed to parse float")
      else
        match rustParseI64 ⟨c :: s1⟩ with
        | some i => .ok (JsonValue.arr [.int i], s1.length + 3)
        | none => .error (errAt tks (s1.length + 2) "failed to parse integer") := by
  have hnumlen : tnum.length = s1.length := by
    have := congrArg List.length hpat
    simpa using this
  have hlen : tks.length = s1.length + 3 := by
    rw [hsplit]
    simp [hnumlen]
  have hc0 : currentToken tks 0 = .ok (Token.leftBracket, p1) := by
    rw [hsplit]
    exact currentToken_at [] _ _
  have hnext0 : nextToken tks 0 = .ok 1 := nextToken_at (by omega)
  have hc1 : currentToken tks 1 = .ok (numTok c, pc) := by
    have hshape : tks = [(Token.leftBracket, p1)] ++ (numTok c, pc) ::
        (tnum ++ [(Token.rightBracket, pr)]) := by
      rw [hsplit]
      simp
    rw [hshape]
    exact currentToken_at [(Token.leftBracket, p1)] _ _
  have hnum : parseNumber tks 1 =
      if (c :: s1).contains '.' then
        match rustParseF64 ⟨c :: s1⟩ with
        | some f => .ok (JsonValue.float f, 1 + (c :: s1).length)
        | none => .error (errAt tks (1 + (c :: s1).length) "failed to parse float")
      else
        match rustParseI64 ⟨c :: s1⟩ with
        | some i => .ok (JsonValue.int i, 1 + (c :: s1).length)
        | none => .error (errAt tks (1 + (c :: s1).length) "failed to parse integer") := by
    have := @parseNumber_trace tks [(Token.leftBracket, p1)] ((numTok c, pc) :: tnum)
      [(Token.rightBracket, pr)] (c :: s1) (by rw [hsplit]; simp) hpat hall
      (by intro hd hhd; simp at hhd; rw [← hhd]; rfl)
    simpa using this
  have hcrb : currentToken tks (s1.length + 2) = .ok (Token.rightBracket, pr) := by
    have hshape : tks = ((Token.leftBracket, p1) :: (numTok c, pc) :: tnum) ++
        (Token.rightBracket, pr) :: [] := by
      rw [hsplit]
      simp
    have hl : ((Token.leftBracket, p1) :: (numTok c, pc) :: tnum).length = s1.length + 2 := by
      simp [hnumlen]
    rw [hshape, ← hl]
    exact currentToken_at _ _ _
  have hnextrb : nextToken tks (s1.length + 2) = .ok (s1.length + 3) :=
    nextToken_at (by omega)
  rw [parseArray_succ, parseArrayLoop_succ, hc0]
  dsimp only
  rw [if_neg (by simp)]
  rw [hnext0]
  dsimp only
  rw [hc1]
  dsimp only
  have harith : 1 + (c :: s1).length = s1.length + 2 := by simp; omega
  rw [harith] at hnum
  obtain ⟨f3, rfl⟩ : ∃ f3, f2 = f3 + 1 := ⟨f2 - 1, by omega⟩
  rcases hhead with hd | rfl
  · rw [numTok_digit hd] at hc1 ⊢
    dsimp only
    rw [hnum]
    by_cases hdot : ((c :: s1).contains '.') = true
    · rw [if_pos hdot, if_pos hdot]
      cases hq : rustParseF64 ⟨c :: s1⟩ with
      | none => rfl
      | some q =>
        dsimp only
        rw [parseArrayLoop_succ, hcrb]
        dsimp only
        rw [if_pos (by simp)]
        dsimp only
        rw [hnextrb]
        simp
    · rw [if_neg hdot, if_neg hdot]
      cases hq : rustParseI64 ⟨c :: s1⟩ with
      | none => rfl
      | some q =>
        dsimp only
        rw [parseArrayLoop_succ, hcrb]
        dsimp only
        rw [if_pos (by simp)]
        dsimp only
        rw [hnextrb]
        simp
  · have hmt : numTok '-' = Token.minus := rfl
    rw [hmt] at hc1 ⊢
    dsimp only
    rw [hnum]
    by_cases hdot : (('-' :: s1).contains '.') = true
    · rw [if_pos hdot, if_pos hdot]
      cases hq : rustParseF64 ⟨'-' :: s1⟩ with
      | none => rfl
      | some q =>
        dsimp only
        rw [parseArrayLoop_succ, hcrb]
        dsimp only
        rw [if_pos (by simp)]
        dsimp only
        rw [hnextrb]
        simp
    · rw [if_neg hdot, if_neg hdot]
      cases hq : rustParseI64 ⟨'-' :: s1⟩ with
      | none => rfl
      | some q =>
        dsimp only
        rw [parseArrayLoop_succ, hcrb]
        dsimp only
        rw [if_pos (by simp)]
        dsimp only
        rw [hnextrb]
        simp

/-- The document `[<run>]` for a number run `c :: s1`. -/
def renderNumDoc (c : Char) (s1 : List Char) : List Char := '[' :: ((c :: s1) ++ [']'])

theorem claim_C7_main (c : Char) (s1 : List Char)
    (hall : ∀ x ∈ c :: s1, x.isDigit ∨ x = '-' ∨ x = '.')
    (hhead : c.isDigit ∨ c = '-') :
    parseDoc ⟨renderNumDoc c s1⟩ =
      if (c :: s1).contains '.' then
        match rustParseF64 ⟨c :: s1⟩ with
        | some q => .ok (JsonValue.arr [JsonValue.float q])
        | none => .error (.syn ("Syntax error: failed to parse float at line 1 column " ++
            toString ((s1.length : Int) + 3)))
      else
        match rustParseI64 ⟨c :: s1⟩ with
        | some i => .ok (JsonValue.arr [JsonValue.int i])
        | none => .error (.syn ("Syntax error: failed to parse integer at line 1 column " ++
            toString ((s1.length : Int) + 3))) := by
  have hne : ∀ x ∈ c :: s1, x ≠ '\n' := fun x hx => numRun_ne_newline (hall x hx)
  have hT : tokenizeAux false ⟨1, 0⟩ (renderNumDoc c s1) =
      (Token.leftBracket, ⟨1, 1⟩) ::
        (tokenizeAux false ⟨1, 1⟩ (c :: s1) ++
          [(Token.rightBracket, posStep (posAfter ⟨1, 1⟩ (c :: s1)) ']')]) := by
    rw [renderNumDoc, tokenizeAux_cons]
    have h0 : classify false '[' = (Token.leftBracket, false) := rfl
    rw [h0]
    dsimp only
    have h1 : posStep ⟨1, 0⟩ '[' = (⟨1, 1⟩ : Position) := by decide
    rw [h1, tokenizeAux_append (c :: s1), flagAfter_numRun _ hall]
    have h2 : ∀ p : Position, tokenizeAux false p [']'] = [(Token.rightBracket, posStep p ']')] :=
      fun _ => rfl
    rw [h2]
  have hfstall : (tokenizeAux false ⟨1, 0⟩ (renderNumDoc c s1)).map Prod.fst =
      Token.leftBracket :: ((c :: s1).map numTok ++ [Token.rightBracket]) := by
    rw [hT]
    simp [tokenizeAux_numRun (c :: s1) _ hall]
  have hrw : removeWhitespace (tokenizeAux false ⟨1, 0⟩ (renderNumDoc c s1)) =
      tokenizeAux false ⟨1, 0⟩ (renderNumDoc c s1) := by
    apply removeWhitespace_of_fst hfstall
    intro t ht
    rcases List.mem_cons.mp ht with rfl | h2
    · exact ⟨by simp, by simp⟩
    rcases List.mem_append.mp h2 with h3 | h3
    · obtain ⟨x, _, rfl⟩ := List.mem_map.mp h3
      rw [numTok]
      split_ifs <;> exact ⟨by simp, by simp⟩
    · rcases List.mem_singleton.mp h3 with rfl
      exact ⟨by simp, by simp⟩
  have hL := hrw.trans hT
  have hmid : tokenizeAux false ⟨1, 1⟩ (c :: s1) =
      (numTok c, posStep ⟨1, 1⟩ c) :: tokenizeAux false (posStep ⟨1, 1⟩ c) s1 := by
    rw [tokenizeAux_cons, classify_numRun (hall c (by simp))]
  have htnumlen : (tokenizeAux false (posStep ⟨1, 1⟩ c) s1).length = s1.length :=
    tokenizeAux_length s1 false _
  have hsplit : (Token.leftBracket, (⟨1, 1⟩ : Position)) ::
        (tokenizeAux false ⟨1, 1⟩ (c :: s1) ++
          [(Token.rightBracket, posStep (posAfter ⟨1, 1⟩ (c :: s1)) ']')]) =
      (Token.leftBracket, (⟨1, 1⟩ : Position)) ::
        ((numTok c, posStep ⟨1, 1⟩ c) :: tokenizeAux false (posStep ⟨1, 1⟩ c) s1 ++
          [(Token.rightBracket, posStep (posAfter ⟨1, 1⟩ (c :: s1)) ']')]) := by
    rw [hmid]
  have hpat : ((numTok c, posStep ⟨1, 1⟩ c) ::
        tokenizeAux false (posStep ⟨1, 1⟩ c) s1).map Prod.fst = (c :: s1).map numTok := by
    rw [← hmid]
    exact tokenizeAux_numRun (c :: s1) _ hall
  have hdata : (String.mk (renderNumDoc c s1)).data = renderNumDoc c s1 := rfl
  rw [parseDoc, tokenize, hdata]
  dsimp only
  rw [Parser.parse]
  dsimp only [Parser.new]
  rw [hL]
  have hc0 : currentToken ((Token.leftBracket, (⟨1, 1⟩ : Position)) ::
        (tokenizeAux false ⟨1, 1⟩ (c :: s1) ++
          [(Token.rightBracket, posStep (posAfter ⟨1, 1⟩ (c :: s1)) ']')])) 0 =
      .ok (Token.leftBracket, ⟨1, 1⟩) := currentToken_at [] _ _
  rw [hc0]
  dsimp only
  have hTlen : ((Token.leftBracket, (⟨1, 1⟩ : Position)) ::
        (tokenizeAux false ⟨1, 1⟩ (c :: s1) ++
          [(Token.rightBracket, posStep (posAfter ⟨1, 1⟩ (c :: s1)) ']')])).length =
      s1.length + 3 := by
    simp [tokenizeAux_length]
  have hfuel : fuelFor ((Token.leftBracket, (⟨1, 1⟩ : Position)) ::
        (tokenizeAux false ⟨1, 1⟩ (c :: s1) ++
          [(Token.rightBracket, posStep (posAfter ⟨1, 1⟩ (c :: s1)) ']')])) =
      (2 * s1.length + 8) + 2 := by
    rw [fuelFor, hTlen]
    omega
  rw [hfuel]
  rw [parseArray_single_number hsplit hpat hall hhead (by omega)]
  have hpr : posStep (posAfter ⟨1, 1⟩ (c :: s1)) ']' =
      (⟨1, (s1.length : Int) + 3⟩ : Position) := by
    rw [posAfter_no_newline (c :: s1) ⟨1, 1⟩ hne, posStep_ne_newline _ (by decide)]
    simp only [Position.mk.injEq, List.length_cons]
    refine ⟨trivial, ?_⟩
    push_cast
    omega
  have hget : ((Token.leftBracket, (⟨1, 1⟩ : Position)) ::
        ((numTok c, posStep ⟨1, 1⟩ c) :: tokenizeAux false (posStep ⟨1, 1⟩ c) s1 ++
          [(Token.rightBracket, posStep (posAfter ⟨1, 1⟩ (c :: s1)) ']')])).get?
        (s1.length + 2) =
      some (Token.rightBracket, ⟨1, (s1.length : Int) + 3⟩) := by
    have hshape : (Token.leftBracket, (⟨1, 1⟩ : Position)) ::
          ((numTok c, posStep ⟨1, 1⟩ c) :: tokenizeAux false (posStep ⟨1, 1⟩ c) s1 ++
            [(Token.rightBracket, posStep (posAfter ⟨1, 1⟩ (c :: s1)) ']')]) =
        ((Token.leftBracket, (⟨1, 1⟩ : Position)) :: (numTok c, posStep ⟨1, 1⟩ c) ::
            tokenizeAux false (posStep ⟨1, 1⟩ c) s1) ++
          (Token.rightBracket, posStep (posAfter ⟨1, 1⟩ (c :: s1)) ']') :: [] := by
      simp
    have hl : ((Token.leftBracket, (⟨1, 1⟩ : Position)) :: (numTok c, posStep ⟨1, 1⟩ c) ::
          tokenizeAux false (posStep ⟨1, 1⟩ c) s1).length = s1.length + 2 := by
      simp [htnumlen]
    rw [hshape, ← hl, List.get?_append_right (Nat.le_refl _)]
    simp [hpr]
  have herrF : errAt ((Token.leftBracket, (⟨1, 1⟩ : Position)) ::
        (tokenizeAux false ⟨1, 1⟩ (c :: s1) ++
          [(Token.rightBracket, posStep (posAfter ⟨1, 1⟩ (c :: s1)) ']')]))
        (s1.length + 2) "failed to parse float" =
      .syn ("Syntax error: failed to parse float at line 1 column " ++
        toString ((s1.length : Int) + 3)) := by
    rw [hmid, errAt_position hget]
    dsimp only
    congr 1
  have herrI : errAt ((Token.leftBracket, (⟨1, 1⟩ : Position)) ::
        (tokenizeAux false ⟨1, 1⟩ (c :: s1) ++
          [(Token.rightBracket, posStep (posAfter ⟨1, 1⟩ (c :: s1)) ']')]))
        (s1.length + 2) "failed to parse integer" =
      .syn ("Syntax error: failed to parse integer at line 1 column " ++
        toString ((s1.length : Int) + 3)) := by
    rw [hmid, errAt_position hget]
    dsimp only
    congr 1
  by_cases hdot : ((c :: s1).contains '.') = true
  · rw [if_pos hdot, if_pos hdot]
    cases hq : rustParseF64 ⟨c :: s1⟩ with
    | none =>
      dsimp only [Except.map]
      exact congrArg Except.error herrF
    | some q => rfl
  · rw [if_neg hdot, if_neg hdot]
    cases hq : rustParseI64 ⟨c :: s1⟩ with
    | none =>
      dsimp only [Except.map]
      exact congrArg Except.error herrI
    | some i => rfl

/-- One-step unfolding of `parse_keyed_object` at positive fuel. -/
theorem parseKeyedObject_succ (tks : List TP) (fuel idx : Nat) :
    parseKeyedObject tks (fuel + 1) idx =
      match parseKey tks idx with
      | .error e => .error e
      | .ok (key, idx) =>
      match assertCurrent tks idx [Token.colon] with
      | .error e => .error e
      | .ok _ =>
      match nextToken tks idx with
      | .error e => .error e
      | .ok idx =>
      match currentToken tks idx with
      | .error e => .error e
      | .ok (next, _) =>
        match (match next with
               | Token.leftCurly => parseObject tks fuel idx
               | Token.quote => parseStringLiteral tks idx
               | Token.char 't' => parseBool tks idx
               | Token.char 'f' => parseBool tks idx
               | Token.digit _ => parseNumber tks idx
               | Token.minus => parseNumber tks idx
               | Token.leftBracket => parseArray tks fuel idx
               | _ => .error (errAt tks idx "unexpected token while parsing object")) with
        | .error e => .error e
        | .ok (v, idx) => .ok (JsonValue.keyedObject key v, idx) := rfl

/-- A parser error respects the message contract: a syntax error's text
has the positioned shape (or the end-of-file variant); the panic and
fuel outcomes carry no message. -/
def ErrOk (tks : List TP) : PErr → Prop
  | .syn m => ErrShapeOf tks m
  | _ => True

theorem errOk_of_error_eq {α : Type} {tks : List TP} {a e : PErr}
    (h : (Except.error a : Except PErr α) = .error e) (ha : ErrOk tks a) : ErrOk tks e :=
  (Except.error.inj h) ▸ ha

theorem errAt_shape {tks : List TP} {idx : Nat} {msg m : String}
    (h : errAt tks idx msg = .syn m) : ErrShapeOf tks m := by
  cases hg : tks.get? idx with
  | none =>
    rw [errAt, hg] at h
    exact Or.inl (PErr.syn.inj h).symm
  | some tp =>
    rw [errAt_position hg] at h
    exact Or.inr ⟨msg, tp, List.get?_mem hg, (PErr.syn.inj h).symm⟩

theorem errAt_errOk (tks : List TP) (idx : Nat) (msg : String) :
    ErrOk tks (errAt tks idx msg) := by
  obtain ⟨m, hm⟩ := errAt_is_syn tks idx msg
  rw [hm]
  exact errAt_shape hm

theorem currentToken_err {tks : List TP} {idx : Nat} {e : PErr}
    (h : currentToken tks idx = .error e) : ErrOk tks e := by
  rw [currentToken] at h
  split at h
  · exact absurd h (by simp)
  · exact errOk_of_error_eq h (errAt_errOk tks idx "unexpected end of file")

theorem nextToken_err {tks : List TP} {idx : Nat} {e : PErr}
    (h : nextToken tks idx = .error e) : ErrOk tks e := by
  rw [nextToken] at h
  split at h
  · exact errOk_of_error_eq h (errAt_errOk tks idx "unterminated")
  · exact absurd h (by simp)

theorem assertCurrent_err {tks : List TP} {idx : Nat} {expected : List Token} {e : PErr}
    (h : assertCurrent tks idx expected = .error e) : ErrOk tks e := by
  rw [assertCurrent] at h
  split at h
  · rename_i e2 heq
    exact errOk_of_error_eq h (currentToken_err heq)
  · split at h
    · exact absurd h (by simp)
    · split at h
      · exact errOk_of_error_eq h (errAt_errOk tks idx _)
      · exact errOk_of_error_eq h (trivial : ErrOk tks PErr.panicked)

theorem parseKey_err {tks : List TP} {idx : Nat} {e : PErr}
    (h : parseKey tks idx = .error e) : ErrOk tks e := by
  rw [parseKey] at h
  split at h
  · rename_i e2 heq
    refine errOk_of_error_eq h ?_
    split at heq
    · exact nextToken_err heq
    · exact errOk_of_error_eq heq (trivial : ErrOk tks PErr.panicked)
    · exact errOk_of_error_eq heq (trivial : ErrOk tks PErr.fuelOut)
    · exact absurd heq (by simp)
  · split at h
    · rename_i heq
      exact errOk_of_error_eq h (assertCurrent_err heq)
    · split at h
      · rename_i heq
        exact errOk_of_error_eq h (nextToken_err heq)
      · dsimp only at h
        split at h
        · rename_i heq
          exact errOk_of_error_eq h (assertCurrent_err heq)
        · split at h
          · rename_i heq
            exact errOk_of_error_eq h (nextToken_err heq)
          · exact absurd h (by simp)

theorem parseStringLiteral_err {tks : List TP} {idx : Nat} {e : PErr}
    (h : parseStringLiteral tks idx = .error e) : ErrOk tks e := by
  rw [parseStringLiteral] at h
  split at h
  · rename_i heq
    exact errOk_of_error_eq h (assertCurrent_err heq)
  · split at h
    · rename_i heq
      exact errOk_of_error_eq h (nextToken_err heq)
    · dsimp only at h
      split at h
      · rename_i heq
        exact errOk_of_error_eq h (assertCurrent_err heq)
      · split at h
        · rename_i heq
          exact errOk_of_error_eq h (nextToken_err heq)
        · exact absurd h (by simp)

theorem parseBool_err {tks : List TP} {idx : Nat} {e : PErr}
    (h : parseBool tks idx = .error e) : ErrOk tks e := by
  rw [parseBool] at h
  split at h
  · exact absurd h (by simp)
  · split at h
    · exact absurd h (by simp)
    · exact errOk_of_error_eq h (errAt_errOk tks _ _)

theorem parseNumber_err {tks : List TP} {idx : Nat} {e : PErr}
    (h : parseNumber tks idx = .error e) : ErrOk tks e := by
  rw [parseNumber] at h
  split at h
  · split at h
    · exact absurd h (by simp)
    · exact errOk_of_error_eq h (errAt_errOk tks _ _)
  · split at h
    · exact absurd h (by simp)
    · exact errOk_of_error_eq h (errAt_errOk tks _ _)

theorem parseFns_err (tks : List TP) : ∀ (fuel : Nat),
    (∀ idx e, parseObject tks fuel idx = .error e → ErrOk tks e) ∧
    (∀ idx objs e, parseObjectLoop tks fuel idx objs = .error e → ErrOk tks e) ∧
    (∀ idx e, parseKeyedObject tks fuel idx = .error e → ErrOk tks e) ∧
    (∀ idx e, parseArray tks fuel idx = .error e → ErrOk tks e) ∧
    (∀ idx arr e, parseArrayLoop tks fuel idx arr = .error e → ErrOk tks e) := by
  intro fuel
  induction fuel with
  | zero =>
    refine ⟨?_, ?_, ?_, ?_, ?_⟩
    · intro idx e h
      exact errOk_of_error_eq h (trivial : ErrOk tks PErr.fuelOut)
    · intro idx objs e h
      exact errOk_of_error_eq h (trivial : ErrOk tks PErr.fuelOut)
    · intro idx e h
      exact errOk_of_error_eq h (trivial : ErrOk tks PErr.fuelOut)
    · intro idx e h
      exact errOk_of_error_eq h (trivial : ErrOk tks PErr.fuelOut)
    · intro idx arr e h
      exact errOk_of_error_eq h (trivial : ErrOk tks PErr.fuelOut)
  | succ n ih =>
    obtain ⟨ihO, ihOL, ihK, ihA, ihAL⟩ := ih
    refine ⟨?_, ?_, ?_, ?_, ?_⟩
    · intro idx e h
      rw [parseObject_succ] at h
      split at h
      · rename_i heq
        exact errOk_of_error_eq h (assertCurrent_err heq)
      · split at h
        · rename_i heq
          exact errOk_of_error_eq h (nextToken_err heq)
        · split at h
          · split at h
            · rename_i heq
              exact errOk_of_error_eq h (nextToken_err heq)
            · exact absurd h (by simp)
          · exact errOk_of_error_eq h (trivial : ErrOk tks PErr.panicked)
          · exact errOk_of_error_eq h (trivial : ErrOk tks PErr.fuelOut)
          · split at h
            · rename_i heq
              exact errOk_of_error_eq h (ihOL _ _ _ heq)
            · exact absurd h (by simp)
    · intro idx objs e h
      rw [parseObjectLoop_succ] at h
      split at h
      · exact absurd h (by simp)
      · exact errOk_of_error_eq h (trivial : ErrOk tks PErr.panicked)
      · exact errOk_of_error_eq h (trivial : ErrOk tks PErr.fuelOut)
      · split at h
        · rename_i heq
          exact errOk_of_error_eq h (assertCurrent_err heq)
        · split at h
          · rename_i heq
            exact errOk_of_error_eq h (currentToken_err heq)
          · split at h
            · exact absurd h (by simp)
            · split at h
              · rename_i heq
                exact errOk_of_error_eq h (ihK _ _ heq)
              · split at h
                · rename_i heq
                  split at heq
                  · exact errOk_of_error_eq h (nextToken_err heq)
                  · exact absurd heq (by simp)
                · exact ihOL _ _ _ h
            · exact errOk_of_error_eq h (errAt_errOk tks idx _)
    · intro idx e h
      rw [parseKeyedObject_succ] at h
      split at h
      · rename_i heq
        exact errOk_of_error_eq h (parseKey_err heq)
      · split at h
        · rename_i heq
          exact errOk_of_error_eq h (assertCurrent_err heq)
        · split at h
          · rename_i heq
            exact errOk_of_error_eq h (nextToken_err heq)
          · split at h
            · rename_i heq
              exact errOk_of_error_eq h (currentToken_err heq)
            · split at h
              · rename_i next p heq
                refine errOk_of_error_eq h ?_
                split at heq
                · exact ihO _ _ heq
                · exact parseStringLiteral_err heq
                · exact parseBool_err heq
                · exact parseBool_err heq
                · exact parseNumber_err heq
                · exact parseNumber_err heq
                · exact ihA _ _ heq
                · exact errOk_of_error_eq heq (errAt_errOk tks _ _)
              · exact absurd h (by simp)
    · intro idx e h
      rw [parseArray_succ] at h
      split at h
      · rename_i heq
        exact errOk_of_error_eq h (ihAL _ _ _ heq)
      · split at h
        · rename_i heq
          exact errOk_of_error_eq h (nextToken_err heq)
        · exact absurd h (by simp)
    · intro idx arr e h
      rw [parseArrayLoop_succ] at h
      split at h
      · rename_i heq
        exact errOk_of_error_eq h (currentToken_err heq)
      · split at h
        · exact absurd h (by simp)
        · split at h
          · rename_i heq
            exact errOk_of_error_eq h (nextToken_err heq)
          · split at h
            · rename_i heq
              exact errOk_of_error_eq h (currentToken_err heq)
            · split at h
              · exact absurd h (by simp)
              · split at h
                · rename_i heq
                  refine errOk_of_error_eq h ?_
                  split at heq
                  · exact ihO _ _ heq
                  · exact parseStringLiteral_err heq
                  · exact parseBool_err heq
                  · exact parseBool_err heq
                  · exact parseNumber_err heq
                  · exact parseNumber_err heq
                  · exact ihA _ _ heq
                  · exact errOk_of_error_eq heq (errAt_errOk tks _ _)
                · exact ihAL _ _ _ h

theorem removeWhitespace_errShape {tps : List TP} {m : String}
    (h : ErrShapeOf (removeWhitespace tps) m) : ErrShapeOf tps m := by
  rcases h with h | ⟨msg, tp, hmem, hm⟩
  · exact Or.inl h
  · exact Or.inr ⟨msg, tp, (List.mem_filter.mp hmem).1, hm⟩

theorem parse_err {toks : List TP} {e : PErr}
    (h : (Parser.new toks).parse = .error e) : ErrOk (removeWhitespace toks) e := by
  rw [Parser.parse] at h
  dsimp only [Parser.new] at h
  split at h
  · rename_i heq
    exact errOk_of_error_eq h (currentToken_err heq)
  · split at h
    · rename_i heq
      cases hp : parseArray (removeWhitespace toks) (fuelFor (removeWhitespace toks)) 0 with
      | error e2 =>
        rw [hp] at h
        have h2 : (Except.error e2 : Except PErr JsonValue) = .error e := by
          simpa [Except.map] using h
        exact errOk_of_error_eq h2 ((parseFns_err (removeWhitespace toks)
          (fuelFor (removeWhitespace toks))).2.2.2.1 _ _ hp)
      | ok v =>
        rw [hp] at h
        exact absurd h (by simp [Except.map])
    · rename_i heq
      cases hp : parseObject (removeWhitespace toks) (fuelFor (removeWhitespace toks)) 0 with
      | error e2 =>
        rw [hp] at h
        have h2 : (Except.error e2 : Except PErr JsonValue) = .error e := by
          simpa [Except.map] using h
        exact errOk_of_error_eq h2 ((parseFns_err (removeWhitespace toks)
          (fuelFor (removeWhitespace toks))).1 _ _ hp)
      | ok v =>
        rw [hp] at h
        exact absurd h (by simp [Except.map])
    · exact errOk_of_error_eq h (errAt_errOk _ _ _)

theorem claim_C9_main (s : String) (m : String)
    (h : parseDoc s = .error (.syn m)) :
    ErrShapeOf (tokenizeAux false ⟨1, 0⟩ s.data) m := by
  rw [parseDoc, tokenize] at h
  dsimp only at h
  exact removeWhitespace_errShape (parse_err h)

instance (c : Char) : Decidable (strOkChar c) := by
  unfold strOkChar
  infer_instance

instance (m : List Char × Char) : Decidable (memberOk m) := by
  unfold memberOk
  infer_instance

theorem parseArray_is_arr {tks : List TP} {fuel idx : Nat} {v : JsonValue} {idx2 : Nat}
    (h : parseArray tks fuel idx = .ok (v, idx2)) : ∃ arr, v = JsonValue.arr arr := by
  cases fuel with
  | zero => exact absurd h (by simp [parseArray, parseFns])
  | succ n =>
    rw [parseArray_succ] at h
    split at h
    · exact absurd h (by simp)
    · split at h
      · exact absurd h (by simp)
      · have h2 := Except.ok.inj h
        rw [Prod.mk.injEq] at h2
        exact ⟨_, h2.1.symm⟩

theorem parseObject_front_empty (p1 p2 : Position) (T : List TP) (f : Nat) :
    parseObject ((Token.leftCurly, p1) :: (Token.rightCurly, p2) :: T) (f + 1) 0 =
      .ok (JsonValue.empty, 2) := by
  rw [parseObject_succ]
  have ha0 : assertCurrent ((Token.leftCurly, p1) :: (Token.rightCurly, p2) :: T) 0
      [Token.leftCurly] = .ok () := assertCurrent_pass rfl rfl
  rw [ha0]
  dsimp only
  rw [nextToken_at (by simp)]
  dsimp only
  have ha1 : assertCurrent ((Token.leftCurly, p1) :: (Token.rightCurly, p2) :: T) 1
      [Token.rightCurly] = .ok () := assertCurrent_pass rfl rfl
  rw [ha1]
  dsimp only
  rw [nextToken_at (by simp)]

theorem parseArray_front_empty (p1 p2 : Position) (T : List TP) (f : Nat) :
    parseArray ((Token.leftBracket, p1) :: (Token.rightBracket, p2) :: T) (f + 1 + 1) 0 =
      .ok (JsonValue.arr [], 2) := by
  rw [parseArray_succ, parseArrayLoop_succ]
  have hc0 : currentToken ((Token.leftBracket, p1) :: (Token.rightBracket, p2) :: T) 0 =
      .ok (Token.leftBracket, p1) := rfl
  rw [hc0]
  dsimp only
  rw [if_neg (show ¬ (Token.leftBracket == Token.rightBracket) = true by decide)]
  rw [nextToken_at (by simp)]
  dsimp only
  have hc1 : currentToken ((Token.leftBracket, p1) :: (Token.rightBracket, p2) :: T) 1 =
      .ok (Token.rightBracket, p2) := rfl
  rw [hc1]
  dsimp only
  rw [nextToken_at (by simp)]

theorem parseDoc_braces_first (s : String) :
    parseDoc ⟨'{' :: ('}' :: s.data)⟩ = .ok .empty := by
  have hdata : (String.mk ('{' :: ('}' :: s.data))).data = '{' :: ('}' :: s.data) := rfl
  rw [parseDoc, tokenize, hdata]
  dsimp only
  rw [Parser.parse]
  dsimp only [Parser.new]
  have hT : tokenizeAux false ⟨1, 0⟩ ('{' :: ('}' :: s.data)) =
      (Token.leftCurly, ⟨1, 1⟩) :: (Token.rightCurly, ⟨1, 2⟩) ::
        tokenizeAux false ⟨1, 2⟩ s.data := rfl
  rw [hT]
  rw [removeWhitespace_cons_keep _ _ (by simp) (by simp)]
  rw [removeWhitespace_cons_keep _ _ (by simp) (by simp)]
  have hc0 : currentToken ((Token.leftCurly, (⟨1, 1⟩ : Position)) ::
      (Token.rightCurly, (⟨1, 2⟩ : Position)) ::
        removeWhitespace (tokenizeAux false ⟨1, 2⟩ s.data)) 0 =
      .ok (Token.leftCurly, ⟨1, 1⟩) := rfl
  rw [hc0]
  dsimp only
  obtain ⟨g, hg⟩ : ∃ g, fuelFor ((Token.leftCurly, (⟨1, 1⟩ : Position)) ::
      (Token.rightCurly, (⟨1, 2⟩ : Position)) ::
        removeWhitespace (tokenizeAux false ⟨1, 2⟩ s.data)) = g + 1 :=
    ⟨2 * ((Token.leftCurly, (⟨1, 1⟩ : Position)) ::
      (Token.rightCurly, (⟨1, 2⟩ : Position)) ::
        removeWhitespace (tokenizeAux false ⟨1, 2⟩ s.data)).length + 3,
      by simp only [fuelFor]⟩
  rw [hg, parseObject_front_empty]
  rfl

theorem parseDoc_brackets_first (s : String) :
    parseDoc ⟨'[' :: (']' :: s.data)⟩ = .ok (.arr []) := by
  have hdata : (String.mk ('[' :: (']' :: s.data))).data = '[' :: (']' :: s.data) := rfl
  rw [parseDoc, tokenize, hdata]
  dsimp only
  rw [Parser.parse]
  dsimp only [Parser.new]
  have hT : tokenizeAux false ⟨1, 0⟩ ('[' :: (']' :: s.data)) =
      (Token.leftBracket, ⟨1, 1⟩) :: (Token.rightBracket, ⟨1, 2⟩) ::
        tokenizeAux false ⟨1, 2⟩ s.data := rfl
  rw [hT]
  rw [removeWhitespace_cons_keep _ _ (by simp) (by simp)]
  rw [removeWhitespace_cons_keep _ _ (by simp) (by simp)]
  have hc0 : currentToken ((Token.leftBracket, (⟨1, 1⟩ : Position)) ::
      (Token.rightBracket, (⟨1, 2⟩ : Position)) ::
        removeWhitespace (tokenizeAux false ⟨1, 2⟩ s.data)) 0 =
      .ok (Token.leftBracket, ⟨1, 1⟩) := rfl
  rw [hc0]
  dsimp only
  obtain ⟨g, hg⟩ : ∃ g, fuelFor ((Token.leftBracket, (⟨1, 1⟩ : Position)) ::
      (Token.rightBracket, (⟨1, 2⟩ : Position)) ::
        removeWhitespace (tokenizeAux false ⟨1, 2⟩ s.data)) = g + 1 + 1 :=
    ⟨2 * ((Token.leftBracket, (⟨1, 1⟩ : Position)) ::
      (Token.rightBracket, (⟨1, 2⟩ : Position)) ::
        removeWhitespace (tokenizeAux false ⟨1, 2⟩ s.data)).length + 2,
      by simp only [fuelFor]⟩
  rw [hg, parseArray_front_empty]
  rfl

/-! ## The claims -/

/-- Claim C1: the claim says `parse` of `tokenize` never panics and rejects a
`NotSupported` token (e.g. from an unrecognised character such as `@`) with a
syntax error.  The code refutes this: on the input `{@}` the empty-object
check `assert_current([RightCurly])` of `parse_object` formats its
"expected ... but got ..." message through `Display for Token`, whose
`NotSupported` arm is `unreachable!()`, so the parser panics instead of
returning an error (`PErr.panicked` in the embedding). -/
theorem claim_C1 : parseDoc "\x7b@\x7d" = .error .panicked := rfl

/-- Claim C2 (corrected): a quoted string literal with an embedded newline is
not truncated at the newline as the spec claims; the newline token is removed
by `remove_whitespace` and the parts before and after it are joined, so
`{"<k>": "<a>\n<b>"}` parses to the string `<a><b>`. -/
theorem claim_C2 (k a b : List Char)
    (hk : ∀ c ∈ k, strOkChar c) (ha : ∀ c ∈ a, strOkChar c) (hb : ∀ c ∈ b, strOkChar c) :
    parseDoc ⟨renderStrDoc k a b⟩ = .ok (.object [.keyedObject ⟨k⟩ (.str ⟨a ++ b⟩)]) :=
  claim_C2_main k a b hk ha hb

/-- Witness for C2 at `{"k": "ab\ncd"}`. -/
theorem claim_C2_witness :
    parseDoc ⟨renderStrDoc ['k'] ['a', 'b'] ['c', 'd']⟩ =
      .ok (.object [.keyedObject ⟨['k']⟩ (.str ⟨['a', 'b'] ++ ['c', 'd']⟩)]) :=
  claim_C2 ['k'] ['a', 'b'] ['c', 'd'] (by decide) (by decide) (by decide)

/-- Counterexample to C2 as stated: the spec predicts the value `"ab"` for the
document `{"k": "ab\ncd"}`, but the parser produces `"abcd"` — the newline is
deleted and the halves are joined, not truncated. -/
theorem claim_C2_cex :
    parseDoc "\x7b\"k\": \"ab\ncd\"\x7d" = .ok (.object [.keyedObject "k" (.str "abcd")]) ∧
    ("abcd" : String) ≠ "ab" := ⟨rfl, by decide⟩

/-- Claim C3: `tokenize` always returns `Ok`, and the returned sequence has
exactly one `(Token, Position)` pair per input character, in input order (the
result is the in-order fold `tokenizeAux` over the characters, of the same
length as the input). -/
theorem claim_C3 (s : String) :
    tokenize s = .ok (tokenizeAux false ⟨1, 0⟩ s.data) ∧
    (tokenizeAux false ⟨1, 0⟩ s.data).length = s.data.length :=
  ⟨rfl, tokenizeAux_length s.data false ⟨1, 0⟩⟩

/-- Claim C4: a well-formed object literal with `n` keyed members parses to an
`Object` with exactly `n` `KeyedObject` entries in source order; the members
are kept one-for-one (`ms.map memberValue`), so duplicate keys are preserved
as separate entries in insertion order (the family carries no distinctness
hypothesis on the keys). -/
theorem claim_C4 (ms : List (List Char × Char)) (hne : ms ≠ [])
    (hok : ∀ m ∈ ms, memberOk m) :
    parseDoc ⟨renderObject ms⟩ = .ok (.object (ms.map memberValue)) ∧
    (ms.map memberValue).length = ms.length :=
  ⟨claim_C4_draft ms hne hok, by simp⟩

/-- Witness for C4 at `{"a": 1, "a": 2}` — a duplicate key, preserved as two
entries in insertion order. -/
theorem claim_C4_witness :
    parseDoc ⟨renderObject [(['a'], '1'), (['a'], '2')]⟩ =
      .ok (.object ([(['a'], '1'), (['a'], '2')].map memberValue)) ∧
    ([(['a'], '1'), (['a'], '2')].map memberValue).length =
      [(['a'], '1'), (['a'], '2')].length :=
  claim_C4 [(['a'], '1'), (['a'], '2')] (by decide) (by decide)

/-- Claim C5: positions start from line 1 and advance one column per consumed
character, a newline resetting the column to 1 and bumping the line (the
attached positions refine `specPositions`, the spec-side discipline);
consequently `{"a" 1}` errors at the column of the digit `1` (column 6) and
the unterminated `{\n  "a": 1\n` errors with the end-of-file variant. -/
theorem claim_C5 :
    (∀ s : String, ∃ tps, tokenize s = .ok tps ∧ tps.map Prod.snd = specPositions s) ∧
    parseDoc "\x7b\"a\" 1\x7d" = .error (.syn ("Syntax error: expected : but got " ++ squo ++
      "1" ++ squo ++ " at line 1 column 6")) ∧
    parseDoc "\x7b\n  \"a\": 1\n" = .error (.syn "Syntax error: unexpected end of file") :=
  ⟨fun s => ⟨_, rfl, tokenizeAux_snd s.data false ⟨1, 0⟩⟩, rfl, rfl⟩

/-- Claim C6: `{}` parses to the `Empty` sentinel while `[]` parses to an
empty `Arr`; and the array production never yields the sentinel — any `ok`
outcome of `parse_array` is an `Arr`, at every fuel, index and token list. -/
theorem claim_C6 :
    parseDoc "\x7b\x7d" = .ok .empty ∧
    parseDoc "[]" = .ok (.arr []) ∧
    (∀ (tks : List TP) (fuel idx : Nat) (v : JsonValue) (idx2 : Nat),
      parseArray tks fuel idx = .ok (v, idx2) → ∃ arr, v = JsonValue.arr arr) :=
  ⟨rfl, rfl, fun _ _ _ _ _ h => parseArray_is_arr h⟩

/-- Claim C7: a number literal in value position is collected as the maximal
digit/minus/dot run; with a decimal point it goes to the native float parser,
otherwise to the 64-bit integer parser, and a native failure surfaces as a
positioned syntax error: the family quantifies over every run, and the
instances give `[0]`, `[12]`, `[-3.5]`, the double-dotted `[1.2.3]` (float
failure at the closing bracket's column) and the bare minus `[-]` (integer
failure). -/
theorem claim_C7 :
    (∀ (c : Char) (s1 : List Char),
      (∀ x ∈ c :: s1, x.isDigit ∨ x = '-' ∨ x = '.') → (c.isDigit ∨ c = '-') →
      parseDoc ⟨renderNumDoc c s1⟩ =
        if (c :: s1).contains '.' then
          match rustParseF64 ⟨c :: s1⟩ with
          | some q => .ok (JsonValue.arr [JsonValue.float q])
          | none => .error (.syn ("Syntax error: failed to parse float at line 1 column " ++
              toString ((s1.length : Int) + 3)))
        else
          match rustParseI64 ⟨c :: s1⟩ with
          | some i => .ok (JsonValue.arr [JsonValue.int i])
          | none => .error (.syn ("Syntax error: failed to parse integer at line 1 column " ++
              toString ((s1.length : Int) + 3)))) ∧
    parseDoc "[0]" = .ok (.arr [.int 0]) ∧
    parseDoc "[12]" = .ok (.arr [.int 12]) ∧
    parseDoc "[-3.5]" = .ok (.arr [.float (-7 / 2 : Rat)]) ∧
    parseDoc "[1.2.3]" = .error (.syn "Syntax error: failed to parse float at line 1 column 7") ∧
    parseDoc "[-]" = .error (.syn "Syntax error: failed to parse integer at line 1 column 3") :=
  ⟨claim_C7_main, rfl, rfl, by
    have h := claim_C7_main '-' ['3', '.', '5'] (by decide) (by decide)
    have hq : rustParseF64 ⟨'-' :: ['3', '.', '5']⟩ =
        some ((-1 : Rat) * (((3 : Nat) : Rat) + ((5 : Nat) : Rat) / (10 : Rat) ^ (1 : Nat))) :=
      rfl
    have hq2 : ((-1 : Rat) * (((3 : Nat) : Rat) + ((5 : Nat) : Rat) / (10 : Rat) ^ (1 : Nat))) =
        -7 / 2 := by
      push_cast
      norm_num
    rw [if_pos (by decide), hq, hq2] at h
    exact h, rfl, rfl⟩

set_option maxHeartbeats 1000000 in
/-- Claim C8: while the in-string flag is set, every character that is not a
newline or a quote — space and tab included — is emitted as a `Char` token
carrying that character; hence `{"k": "hello world"}` keeps the embedded
space, and whitespace between tokens outside strings does not change the
result (the padded document parses to the same value). -/
theorem claim_C8 :
    (∀ c : Char, c ≠ '\n' → c ≠ '"' → classify true c = (Token.char c, true)) ∧
    classify true ' ' = (Token.char ' ', true) ∧
    classify true '\t' = (Token.char '\t', true) ∧
    parseDoc "\x7b\"k\": \"hello world\"\x7d" =
      .ok (.object [.keyedObject "k" (.str "hello world")]) ∧
    parseDoc "  \x7b  \"k\" :  \"hello world\" \x7d  " =
      .ok (.object [.keyedObject "k" (.str "hello world")]) :=
  ⟨fun c h1 h2 => classify_instring ⟨h1, h2⟩, rfl, rfl, rfl, rfl⟩

/-- Claim C9: every syntax error a parse returns carries a message of the
exact shape `"Syntax error: <message> at line <L> column <C>"` with the
position of a token of the input's token stream, or the end-of-file variant
`"Syntax error: unexpected end of file"`. -/
theorem claim_C9 (s : String) (m : String)
    (h : parseDoc s = .error (.syn m)) :
    ErrShapeOf (tokenizeAux false ⟨1, 0⟩ s.data) m :=
  claim_C9_main s m h

/-- Witness for C9 at the failing input `x`. -/
theorem claim_C9_witness :
    parseDoc "x" = .error (.syn "Syntax error: invalid JSON document at line 1 column 1") ∧
    ErrShapeOf (tokenizeAux false ⟨1, 0⟩ "x".data)
      "Syntax error: invalid JSON document at line 1 column 1" :=
  ⟨rfl, claim_C9 "x" _ rfl⟩

theorem parseArray_front_digit {d : Char} (hd : d.isDigit = true) (p1 p2 p3 : Position)
    (T : List TP) (f : Nat) :
    parseArray ((Token.leftBracket, p1) :: (Token.digit d, p2) ::
        (Token.rightBracket, p3) :: T) (f + 3) 0 =
      .ok (JsonValue.arr [JsonValue.int ((d.toNat - 48 : Nat) : Int)], 3) := by
  have hnum : parseNumber ((Token.leftBracket, p1) :: (Token.digit d, p2) ::
      (Token.rightBracket, p3) :: T) 1 =
      .ok (JsonValue.int ((d.toNat - 48 : Nat) : Int), 2) := by
    have hshape : (Token.leftBracket, p1) :: (Token.digit d, p2) ::
        (Token.rightBracket, p3) :: T =
        [(Token.leftBracket, p1)] ++ [(Token.digit d, p2)] ++
          ((Token.rightBracket, p3) :: T) := by simp
    have htr := @parseNumber_trace ((Token.leftBracket, p1) :: (Token.digit d, p2) ::
        (Token.rightBracket, p3) :: T) [(Token.leftBracket, p1)] [(Token.digit d, p2)]
        ((Token.rightBracket, p3) :: T) [d] hshape
        (by simp [numTok_digit hd]) (by simp [hd])
        (by intro hd2 hh; simp at hh; subst hh; rfl)
    have hone : ([(Token.leftBracket, p1)] : List TP).length = 1 := rfl
    rw [hone] at htr
    rw [htr, if_neg (by rw [contains_dot_single hd]; simp), rustParseI64_digit hd]
    simp
  rw [parseArray_succ, parseArrayLoop_succ]
  have hc0 : currentToken ((Token.leftBracket, p1) :: (Token.digit d, p2) ::
      (Token.rightBracket, p3) :: T) 0 = .ok (Token.leftBracket, p1) := rfl
  rw [hc0]
  dsimp only
  rw [if_neg (show ¬ (Token.leftBracket == Token.rightBracket) = true by decide)]
  rw [nextToken_at (by simp)]
  dsimp only
  have hc1 : currentToken ((Token.leftBracket, p1) :: (Token.digit d, p2) ::
      (Token.rightBracket, p3) :: T) 1 = .ok (Token.digit d, p2) := rfl
  rw [hc1]
  dsimp only
  rw [hnum]
  dsimp only
  rw [parseArrayLoop_succ]
  have hc2 : currentToken ((Token.leftBracket, p1) :: (Token.digit d, p2) ::
      (Token.rightBracket, p3) :: T) 2 = .ok (Token.rightBracket, p3) := rfl
  rw [hc2]
  dsimp only
  rw [if_pos (by simp)]
  dsimp only
  rw [nextToken_at (by simp)]
  dsimp only
  simp

theorem parseDoc_digit_array_first {d : Char} (hd : d.isDigit = true) (s : String) :
    parseDoc ⟨'[' :: (d :: (']' :: s.data))⟩ =
      .ok (.arr [.int ((d.toNat - 48 : Nat) : Int)]) := by
  have hdnl : d ≠ '\n' := char_ne_of_isDigit hd (by decide)
  have hT : tokenizeAux false ⟨1, 0⟩ ('[' :: (d :: (']' :: s.data))) =
      (Token.leftBracket, ⟨1, 1⟩) :: (Token.digit d, ⟨1, 2⟩) ::
        (Token.rightBracket, ⟨1, 3⟩) :: tokenizeAux false ⟨1, 3⟩ s.data := by
    rw [tokenizeAux_cons]
    have h0 : classify false '[' = (Token.leftBracket, false) := rfl
    rw [h0]
    dsimp only
    have h1 : posStep ⟨1, 0⟩ '[' = (⟨1, 1⟩ : Position) := by decide
    rw [h1, tokenizeAux_cons, classify_digit hd]
    dsimp only
    have h2 : posStep ⟨1, 1⟩ d = (⟨1, 2⟩ : Position) := by
      rw [posStep_ne_newline _ hdnl]
      rfl
    rw [h2, tokenizeAux_cons]
    have h3 : classify false ']' = (Token.rightBracket, false) := rfl
    rw [h3]
    dsimp only
    have h4 : posStep ⟨1, 2⟩ ']' = (⟨1, 3⟩ : Position) := by decide
    rw [h4]
  have hdata : (String.mk ('[' :: (d :: (']' :: s.data)))).data =
      '[' :: (d :: (']' :: s.data)) := rfl
  rw [parseDoc, tokenize, hdata]
  dsimp only
  rw [Parser.parse]
  dsimp only [Parser.new]
  rw [hT]
  rw [removeWhitespace_cons_keep _ _ (by simp) (by simp)]
  rw [removeWhitespace_cons_keep _ _ (by simp) (by simp)]
  rw [removeWhitespace_cons_keep _ _ (by simp) (by simp)]
  have hc0 : currentToken ((Token.leftBracket, (⟨1, 1⟩ : Position)) ::
      (Token.digit d, (⟨1, 2⟩ : Position)) :: (Token.rightBracket, (⟨1, 3⟩ : Position)) ::
        removeWhitespace (tokenizeAux false ⟨1, 3⟩ s.data)) 0 =
      .ok (Token.leftBracket, ⟨1, 1⟩) := rfl
  rw [hc0]
  dsimp only
  obtain ⟨g, hg⟩ : ∃ g, fuelFor ((Token.leftBracket, (⟨1, 1⟩ : Position)) ::
      (Token.digit d, (⟨1, 2⟩ : Position)) :: (Token.rightBracket, (⟨1, 3⟩ : Position)) ::
        removeWhitespace (tokenizeAux false ⟨1, 3⟩ s.data)) = g + 3 :=
    ⟨2 * ((Token.leftBracket, (⟨1, 1⟩ : Position)) ::
      (Token.digit d, (⟨1, 2⟩ : Position)) :: (Token.rightBracket, (⟨1, 3⟩ : Position)) ::
        removeWhitespace (tokenizeAux false ⟨1, 3⟩ s.data)).length + 1,
      by simp only [fuelFor]⟩
  rw [hg, parseArray_front_digit hd]
  rfl

/-- Claim C10 (corrected): `parse` never checks that the token stream is fully
consumed, and trailing tokens after the root are silently ignored whenever the
root production returns upon consuming its closing delimiter: every array root
does — the empty `[]` and the nonempty `[<digit>]` with an arbitrary suffix
(`[1]X` parses to `Arr [Int 1]` with the `X` unexamined) — and so does the
empty object root (`{} {}` parses to `Empty` with the trailing braces
unexamined).  The claim's "for every input", however, is refuted by
`claim_C10_cex`: the member loop of a nonempty root object examines the token
after the closing brace. -/
theorem claim_C10 :
    (∀ s : String, parseDoc ⟨'{' :: ('}' :: s.data)⟩ = .ok .empty) ∧
    (∀ s : String, parseDoc ⟨'[' :: (']' :: s.data)⟩ = .ok (.arr [])) ∧
    (∀ (d : Char), d.isDigit = true → ∀ s : String,
      parseDoc ⟨'[' :: (d :: (']' :: s.data))⟩ =
        .ok (.arr [.int ((d.toNat - 48 : Nat) : Int)])) ∧
    parseDoc "[1]X" = .ok (.arr [.int 1]) ∧
    parseDoc "\x7b\x7d \x7b\x7d" = .ok .empty :=
  ⟨parseDoc_braces_first, parseDoc_brackets_first,
    fun _ hd s => parseDoc_digit_array_first hd s, rfl, rfl⟩

/-- Counterexample to C10 as stated: the prefix `{"a": {}}` is a complete
root object (it parses on its own), yet with the trailing `X` appended the
parse fails instead of ignoring it. -/
theorem claim_C10_cex :
    parseDoc "\x7b\"a\": \x7b\x7d\x7d" = .ok (.object [.keyedObject "a" .empty]) ∧
    parseDoc "\x7b\"a\": \x7b\x7d\x7dX" = .error (.syn ("Syntax error: expected \", , but got " ++
      squo ++ "X" ++ squo ++ " at line 1 column 10")) := ⟨rfl, rfl⟩

end Jsonp
